import Mathlib

set_option maxRecDepth 100000
set_option maxHeartbeats 4000000

/-!
Verification development for the GA4GH Variation Representation (VRS)
reference implementation (vrs-python).

The repository sources available here contain the notebooks, documentation
and build scripts of vrs-python; the core Python package itself
(`ga4gh.core` / `ga4gh.vrs`) is not among them.  The definitions below are
therefore modelled from the specification's description of the data model,
canonical serializer, digest, normalizer, translators and enref/deref
engine, anchored at every step by the concrete object dumps and identifiers
recorded in the repository's notebooks (4_Exploring_the_AlleleTranslator,
1_Quick_Start, 5_Exploring_the_CnvTranslator, 6_Upcoming_features, and the
inlined/referenced-objects notebook).

Identifier computation is fully executable: SHA-512 and base64url are
implemented here from scratch, so digest claims are decided by actually
computing the GA4GH identifiers inside Lean.
-/

/-! ## Byte-level utilities -/

/-- Mask for 64-bit words: `2 ^ 64 - 1`. -/
def w64mask : Nat := 18446744073709551615

/-- 64-bit modulus: `2 ^ 64`. -/
def w64mod : Nat := 18446744073709551616

/-- Addition modulo `2^64`. -/
def add64 (a b : Nat) : Nat := (a + b) % w64mod

/-- Right rotation of a 64-bit word by `n` bits. -/
def rotr64 (n x : Nat) : Nat := ((x >>> n) ||| (x <<< (64 - n))) &&& w64mask

/-- Big-endian byte decomposition of `n` into exactly `k` bytes. -/
def beBytes : Nat → Nat → List Nat
  | 0, _ => []
  | k + 1, n => beBytes k (n / 256) ++ [n % 256]

/-- Assemble consecutive groups of eight bytes into big-endian 64-bit words. -/
def bytesToWords : List Nat → List Nat
  | b0 :: b1 :: b2 :: b3 :: b4 :: b5 :: b6 :: b7 :: rest =>
      (((((((b0 * 256 + b1) * 256 + b2) * 256 + b3) * 256 + b4) * 256 + b5) * 256
        + b6) * 256 + b7) :: bytesToWords rest
  | _ => []

/-! ## SHA-512

Implemented from FIPS 180-4; the specification's digest contract is
SHA-512 over the canonical serialization bytes. -/

/-- The eighty SHA-512 round constants. -/
def sha512K : List Nat :=
  [4794697086780616226, 8158064640168781261, 13096744586834688815, 16840607885511220156,
  4131703408338449720, 6480981068601479193, 10538285296894168987, 12329834152419229976,
  15566598209576043074, 1334009975649890238, 2608012711638119052, 6128411473006802146,
  8268148722764581231, 9286055187155687089, 11230858885718282805, 13951009754708518548,
  16472876342353939154, 17275323862435702243, 1135362057144423861, 2597628984639134821,
  3308224258029322869, 5365058923640841347, 6679025012923562964, 8573033837759648693,
  10970295158949994411, 12119686244451234320, 12683024718118986047, 13788192230050041572,
  14330467153632333762, 15395433587784984357, 489312712824947311, 1452737877330783856,
  2861767655752347644, 3322285676063803686, 5560940570517711597, 5996557281743188959,
  7280758554555802590, 8532644243296465576, 9350256976987008742, 10552545826968843579,
  11727347734174303076, 12113106623233404929, 14000437183269869457, 14369950271660146224,
  15101387698204529176, 15463397548674623760, 17586052441742319658, 1182934255886127544,
  1847814050463011016, 2177327727835720531, 2830643537854262169, 3796741975233480872,
  4115178125766777443, 5681478168544905931, 6601373596472566643, 7507060721942968483,
  8399075790359081724, 8693463985226723168, 9568029438360202098, 10144078919501101548,
  10430055236837252648, 11840083180663258601, 13761210420658862357, 14299343276471374635,
  14566680578165727644, 15097957966210449927, 16922976911328602910, 17689382322260857208,
  500013540394364858, 748580250866718886, 1242879168328830382, 1977374033974150939,
  2944078676154940804, 3659926193048069267, 4368137639120453308, 4836135668995329356,
  5532061633213252278, 6448918945643986474, 6902733635092675308, 7801388544844847127]

/-- SHA-512 initial hash value. -/
def sha512H0 : List Nat :=
  [7640891576956012808, 13503953896175478587, 4354685564936845355, 11912009170470909681,
  5840696475078001361, 11170449401992604703, 2270897969802886507, 6620516959819538809]

/-- SHA-512 small sigma 0. -/
def ssig0 (x : Nat) : Nat := rotr64 1 x ^^^ rotr64 8 x ^^^ (x >>> 7)

/-- SHA-512 small sigma 1. -/
def ssig1 (x : Nat) : Nat := rotr64 19 x ^^^ rotr64 61 x ^^^ (x >>> 6)

/-- SHA-512 big sigma 0. -/
def bsig0 (x : Nat) : Nat := rotr64 28 x ^^^ rotr64 34 x ^^^ rotr64 39 x

/-- SHA-512 big sigma 1. -/
def bsig1 (x : Nat) : Nat := rotr64 14 x ^^^ rotr64 18 x ^^^ rotr64 41 x

/-- SHA-512 choice function (`¬e` is taken as xor with the 64-bit mask). -/
def chFn (e f g : Nat) : Nat := (e &&& f) ^^^ ((e ^^^ w64mask) &&& g)

/-- SHA-512 majority function. -/
def majFn (a b c : Nat) : Nat := (a &&& b) ^^^ (a &&& c) ^^^ (b &&& c)

/-- Extend the message schedule, kept in reverse (newest word first), by
`n` words: the recurrence reads W[t-2], W[t-7], W[t-15], W[t-16], which are
positions 1, 6, 14 and 15 of the reversed schedule. -/
def schedRev : Nat → List Nat → List Nat
  | 0, acc => acc
  | n + 1, acc =>
      let g := fun i => acc.getD i 0
      schedRev n (add64 (add64 (ssig1 (g 1)) (g 6)) (add64 (ssig0 (g 14)) (g 15)) :: acc)

/-- One SHA-512 compression pass over the (constant, schedule-word) pairs. -/
def sha512Rounds : List (Nat × Nat) → List Nat → List Nat
  | [], st => st
  | (k, w) :: rest, [a, b, c, d, e, f, g, h] =>
      let t1 := add64 (add64 h (bsig1 e)) (add64 (chFn e f g) (add64 k w))
      let t2 := add64 (bsig0 a) (majFn a b c)
      sha512Rounds rest [add64 t1 t2, a, b, c, add64 d t1, e, f, g]
  | _, st => st

/-- Compress one 16-word block into the running hash state. -/
def sha512Block (st : List Nat) (block : List Nat) : List Nat :=
  let w := (schedRev 64 block.reverse).reverse
  let out := sha512Rounds (sha512K.zip w) st
  (st.zip out).map fun p => add64 p.1 p.2

/-- Split a word list into 16-word blocks (fuel-driven recursion). -/
def toBlocks : Nat → List Nat → List (List Nat)
  | 0, _ => []
  | _, [] => []
  | fuel + 1, ws => ws.take 16 :: toBlocks fuel (ws.drop 16)

/-- SHA-512 padding: append `0x80`, zeros, and the 128-bit big-endian bit length. -/
def sha512Pad (msg : List Nat) : List Nat :=
  msg ++ [128] ++ List.replicate ((239 - msg.length % 128) % 128) 0
      ++ beBytes 16 (8 * msg.length)

/-- SHA-512 of a byte list, as a list of 64 bytes. -/
def sha512 (msg : List Nat) : List Nat :=
  let blocks := toBlocks (msg.length / 128 + 2) (bytesToWords (sha512Pad msg))
  (blocks.foldl sha512Block sha512H0).flatMap (beBytes 8)

/-! ## base64url (no padding) -/

/-- The base64url alphabet. -/
def b64alphabet : List Char :=
  "ABCDEFGHIJKLMNOPQRSTUVWXYZabcdefghijklmnopqrstuvwxyz0123456789-_".data

/-- One base64url character for a 6-bit value. -/
def b64char (n : Nat) : Char := b64alphabet.getD n 'A'

/-- base64url encoding without padding characters. -/
def b64url : List Nat → List Char
  | [] => []
  | [b1] => [b64char (b1 / 4), b64char (b1 % 4 * 16)]
  | [b1, b2] => [b64char (b1 / 4), b64char (b1 % 4 * 16 + b2 / 16), b64char (b2 % 16 * 4)]
  | b1 :: b2 :: b3 :: rest =>
      b64char (b1 / 4) :: b64char (b1 % 4 * 16 + b2 / 16)
        :: b64char (b2 % 16 * 4 + b3 / 64) :: b64char (b3 % 64) :: b64url rest

/-- The GA4GH truncated digest: base64url of the first 24 bytes of SHA-512.
The notebooks' recorded identifiers (32-character digests) pin this down. -/
def sha512t24u (msg : List Nat) : List Char := b64url ((sha512 msg).take 24)

/-! ## Canonical serialization

Modelled from the spec: the canonical serializer (§4.1) emits a mapping
literal with keys in lexicographic (code-point) order, minimal whitespace,
UTF-8 and integer-only numerics; only digest-contributing keys appear
(an allow-list per type); annotation fields are excluded; nested
identifiable sub-objects are replaced by their digest, non-identifiable
sub-objects are inlined recursively.  Because every VRS type's
digest-contributing key set is fixed, the canonical form of each type is
built directly with its keys written in lexicographic order.  The
resulting serializations are validated against every identifier recorded
in the repository's notebooks. -/

/-- The double-quote character. -/
def qCh : Char := Char.ofNat 34

/-- Opening brace character. -/
def obCh : Char := Char.ofNat 123

/-- Closing brace character. -/
def cbCh : Char := Char.ofNat 125

/-- Decimal digit character for a value below ten. -/
def digCh (n : Nat) : Char := Char.ofNat (48 + n)

/-- Decimal digits of a natural number (fuel-driven). -/
def natDigitsAux : Nat → Nat → List Char
  | 0, _ => []
  | fuel + 1, n => if n < 10 then [digCh n] else natDigitsAux fuel (n / 10) ++ [digCh (n % 10)]

/-- Decimal rendering of a natural number. -/
def natDigits (n : Nat) : List Char := natDigitsAux (n + 1) n

/-- Join with a separator character. -/
def joinSep (sep : Char) : List (List Char) → List Char
  | [] => []
  | [x] => x
  | x :: y :: rest => x ++ sep :: joinSep sep (y :: rest)

/-- A canonical-JSON string-valued field: `"key":"value"`. -/
def jStrField (k v : List Char) : List Char := qCh :: k ++ qCh :: ':' :: qCh :: v ++ [qCh]

/-- A canonical-JSON integer-valued field: `"key":n`. -/
def jNumField (k : List Char) (n : Nat) : List Char := qCh :: k ++ qCh :: ':' :: natDigits n

/-- A canonical-JSON object-valued field: `"key":{...}`. -/
def jObjField (k v : List Char) : List Char := qCh :: k ++ qCh :: ':' :: v

/-- A canonical-JSON mapping literal from pre-encoded fields, whose keys
must be supplied in lexicographic order. -/
def jObjOf (fields : List (List Char)) : List Char := obCh :: joinSep ',' fields ++ [cbCh]

/-- The digest of a canonical serialization: `sha512t24u` of its UTF-8
bytes (all digest-contributing content is ASCII, so bytes are character
codes). -/
def serialDigest (s : List Char) : List Char := sha512t24u (s.map Char.toNat)

/-! ## VRS object model

Modelled from the spec (§3): SequenceReference, SequenceLocation, the
sequence-expression states, Allele, CopyNumberCount and CopyNumberChange.
Coordinates are the definite (integer) form used by all of the claims; the
spec itself marks the treatment of range-valued coordinates under
normalization as under-specified. -/

/-- A reference to a biological sequence by refget accession.
Not independently identifiable: the accession is its identity. -/
structure SequenceReference where
  refgetAccession : List Char
deriving DecidableEq

/-- A half-open interbase interval on a sequence reference. Identifiable.
(The upper bound is called `end` in VRS; `end` is reserved in Lean.) -/
structure SequenceLocation where
  sequenceReference : SequenceReference
  start : Nat
  stop : Nat
deriving DecidableEq

/-- The state of an Allele: a literal sequence, a reference-length
expression for tandem repeats, or a purely numeric length expression. -/
inductive SequenceExpression where
  | literal (sequence : List Char)
  | rle (length repeatSubunitLength : Nat)
  | lengthExpr (length : Nat)
deriving DecidableEq

/-- A single state at a location. Identifiable. -/
structure Allele where
  location : SequenceLocation
  state : SequenceExpression
deriving DecidableEq

/-- An absolute copy count of a location. Identifiable. -/
structure CopyNumberCount where
  location : SequenceLocation
  copies : Nat
deriving DecidableEq

/-- A relative copy-number assessment of a location, with an ontology code
(for example `efo:0030067` for loss, as listed in the CnvTranslator
notebook). Identifiable. -/
structure CopyNumberChange where
  location : SequenceLocation
  copyChange : List Char
deriving DecidableEq

/-- Canonical serialization of a SequenceReference: inlined, with only its
refget accession and type discriminant (no id, no digest). -/
def SequenceReference.serial (r : SequenceReference) : List Char :=
  jObjOf [jStrField "refgetAccession".data r.refgetAccession,
          jStrField "type".data "SequenceReference".data]

/-- Canonical serialization of a SequenceLocation: the interval bounds, the
inlined (non-identifiable) sequence reference, and the type discriminant. -/
def SequenceLocation.serial (l : SequenceLocation) : List Char :=
  jObjOf [jNumField "end".data l.stop,
          jObjField "sequenceReference".data l.sequenceReference.serial,
          jNumField "start".data l.start,
          jStrField "type".data "SequenceLocation".data]

/-- The 32-character digest of a SequenceLocation. -/
def SequenceLocation.digest (l : SequenceLocation) : List Char := serialDigest l.serial

/-- The namespaced identifier of a SequenceLocation. -/
def SequenceLocation.identify (l : SequenceLocation) : String :=
  .mk ("ga4gh:SL.".data ++ l.digest)

/-- Canonical serialization of a sequence-expression state (inlined:
states are not independently identifiable). -/
def SequenceExpression.serial : SequenceExpression → List Char
  | .literal s => jObjOf [jStrField "sequence".data s,
      jStrField "type".data "LiteralSequenceExpression".data]
  | .rle len rsl => jObjOf [jNumField "length".data len,
      jNumField "repeatSubunitLength".data rsl,
      jStrField "type".data "ReferenceLengthExpression".data]
  | .lengthExpr len => jObjOf [jNumField "length".data len,
      jStrField "type".data "LengthExpression".data]

/-- Canonical serialization of an Allele: the identifiable location child
is replaced by its digest string. -/
def Allele.serial (a : Allele) : List Char :=
  jObjOf [jStrField "location".data a.location.digest,
          jObjField "state".data a.state.serial,
          jStrField "type".data "Allele".data]

/-- The 32-character digest of an Allele. -/
def Allele.digest (a : Allele) : List Char := serialDigest a.serial

/-- The namespaced identifier of an Allele. -/
def Allele.identify (a : Allele) : String := .mk ("ga4gh:VA.".data ++ a.digest)

/-- Canonical serialization of a CopyNumberCount. -/
def CopyNumberCount.serial (c : CopyNumberCount) : List Char :=
  jObjOf [jNumField "copies".data c.copies,
          jStrField "location".data c.location.digest,
          jStrField "type".data "CopyNumberCount".data]

/-- The 32-character digest of a CopyNumberCount. -/
def CopyNumberCount.digest (c : CopyNumberCount) : List Char := serialDigest c.serial

/-- The namespaced identifier of a CopyNumberCount. -/
def CopyNumberCount.identify (c : CopyNumberCount) : String :=
  .mk ("ga4gh:CN.".data ++ c.digest)

/-- Canonical serialization of a CopyNumberChange. -/
def CopyNumberChange.serial (c : CopyNumberChange) : List Char :=
  jObjOf [jStrField "copyChange".data c.copyChange,
          jStrField "location".data c.location.digest,
          jStrField "type".data "CopyNumberChange".data]

/-- The 32-character digest of a CopyNumberChange. -/
def CopyNumberChange.digest (c : CopyNumberChange) : List Char := serialDigest c.serial

/-- The namespaced identifier of a CopyNumberChange. -/
def CopyNumberChange.identify (c : CopyNumberChange) : String :=
  .mk ("ga4gh:CX.".data ++ c.digest)

/-- The SequenceLocation recorded in the notebooks for the variant
`NC_000005.10:80656488:C:T` (GRCh38 chromosome 5). -/
def locC1 : SequenceLocation :=
  ⟨⟨"SQ.aUiQCzCPZ2d0csHbMSbh2NzInhonSXwI".data⟩, 80656488, 80656489⟩

/-- The Allele recorded in the notebooks for `NC_000005.10:80656488:C:T`. -/
def alleleC1 : Allele := ⟨locC1, .literal "T".data⟩

/-! ## Fully-justified allele normalization

Modelled from the spec (§4.4.1): trim common affixes, classify, roll a
pure indel's bubble sequence to the bounds of the tandem-repeat block, and
emit either a ReferenceLengthExpression (when the rolled span is an exact
positive multiple of the repeat subunit of length at least two) or a
LiteralSequenceExpression joining the reference flanks with the trimmed
alternate.  The reference is passed explicitly as the residue list the
sequence repository serves for the Allele's sequence reference. -/

/-- The residues of `l` in the half-open interbase interval `[a, b)`. -/
def sl (l : List Char) (a b : Nat) : List Char := (l.drop a).take (b - a)

/-- Length of the longest common prefix of two residue lists. -/
def cpl : List Char → List Char → Nat
  | a :: as, b :: bs => if a = b then cpl as bs + 1 else 0
  | _, _ => 0

/-- How many leading residues of `w` match the endless circular repetition
of the repeat subunit `u` (the subunit is rotated as it is consumed). -/
def munch : List Char → List Char → Nat
  | c :: w, d :: u => if c = d then munch w (u ++ [d]) + 1 else 0
  | _, _ => 0

/-- The first `n` residues of the endless repetition of `u`. -/
def cyc : List Char → Nat → List Char
  | _, 0 => []
  | [], _ + 1 => []
  | d :: u, n + 1 => d :: cyc (u ++ [d]) n

/-- Left bound of tandem-repeat rolling (§4.4.1 step 3): the smallest
position reachable from `s` by consuming residues that match the circular
repetition of `u` leftwards. -/
def rollL (ref : List Char) (s : Nat) (u : List Char) : Nat :=
  s - munch (ref.take s).reverse u.reverse

/-- Right bound of tandem-repeat rolling: the largest position reachable
from `e` by consuming residues that match the circular repetition of `u`
rightwards. -/
def rollR (ref : List Char) (e : Nat) (u : List Char) : Nat :=
  e + munch (ref.drop e) u

/-- Fully-justified normalization of an Allele against its reference
residues (§4.4.1).  Alleles whose state is not a LiteralSequenceExpression
pass through unchanged (their treatment is implementation-defined in the
source; the claims quantify over literal-state alleles). -/
def normalizeAllele (ref : List Char) (a : Allele) : Allele :=
  match a.state with
  | .literal A =>
    let R := sl ref a.location.start a.location.stop
    let p := cpl R A
    let q := cpl (R.drop p).reverse (A.drop p).reverse
    let s := a.location.start + p
    let e := a.location.stop - q
    let R1 := (R.drop p).take (R.length - p - q)
    let A1 := (A.drop p).take (A.length - p - q)
    if R1 = [] ∧ A1 = [] then a
    else if R1 ≠ [] ∧ A1 ≠ [] then ⟨⟨a.location.sequenceReference, s, e⟩, .literal A1⟩
    else
      let u := if R1 = [] then A1 else R1
      let L := rollL ref s u
      let H := rollR ref e u
      if (H - L) % u.length = 0 ∧ 0 < H - L ∧ 2 ≤ u.length then
        ⟨⟨a.location.sequenceReference, L, H⟩, .rle (H - L + A1.length - R1.length) u.length⟩
      else
        ⟨⟨a.location.sequenceReference, L, H⟩, .literal (sl ref L s ++ A1 ++ sl ref e H)⟩
  | _ => a

/-- A sequence reference for small worked examples. -/
def srX : SequenceReference := ⟨"SQ.test".data⟩

/-! ## Format translators

Modelled from the spec (§4.5): parse the external expression to a
`(reference, interbase interval, ref, alt)` tuple, resolve the reference
through the sequence repository, validate the reference residues, build a
raw Allele, normalize, and identify bottom-up.  The sequence repository
collaborator is modelled as lookup functions plus, per refget accession,
the window of reference residues it serves (an offset and the residue
list); the HGVS grammar parser (an external collaborator in the spec) is
modelled for the genomic substitution and deletion forms the claims use. -/

/-- The external variant grammars. -/
inductive Fmt where
  | spdi | hgvs | gnomad | beacon
deriving DecidableEq

/-- The sequence repository collaborator (spec §6.1), modelled as pure
lookups: alias to refget accession, refget to preferred RefSeq alias,
refget to all aliases, and the served reference window per refget. -/
structure SeqRepo where
  toRefget : List Char → Option (List Char)
  refseqAlias : List Char → Option (List Char)
  aliases : List Char → List (List Char)
  window : List Char → Option (Nat × List Char)

/-- Split a residue list on a separator character. -/
def splitCh (sep : Char) (l : List Char) : List (List Char) :=
  l.foldr (fun c acc => match acc with
    | cur :: done => if c = sep then [] :: cur :: done else (c :: cur) :: done
    | [] => [[c]]) [[]]

/-- Decimal digit test. -/
def isDigitCh (c : Char) : Bool := 48 ≤ c.toNat && c.toNat ≤ 57

/-- Parse a non-empty all-digit residue list as a natural number. -/
def parseNat (l : List Char) : Option Nat :=
  if l ≠ [] ∧ l.all isDigitCh then
    some (l.foldl (fun acc c => acc * 10 + (c.toNat - 48)) 0)
  else none

/-- A parsed external variant: reference accession, interbase interval,
the claimed reference residues when the grammar provides them, and the
alternate residues. -/
structure RawVar where
  acc : List Char
  start : Nat
  stop : Nat
  refChk : Option (List Char)
  alt : List Char

/-- Parse a SPDI expression `seq:pos:del:ins`; the deletion slot is either
the deleted residues or their count. -/
def parseSpdi (l : List Char) : Option RawVar :=
  match splitCh ':' l with
  | [acc, posS, del, ins] =>
    match parseNat posS with
    | some pos =>
      match parseNat del with
      | some n => some ⟨acc, pos, pos + n, none, ins⟩
      | none => some ⟨acc, pos, pos + del.length, some del, ins⟩
    | none => none
  | _ => none

/-- Parse a gnomAD expression `chr-pos-ref-alt` (1-based position); the
chromosome is qualified by the default assembly. -/
def parseGnomad (assembly : List Char) (l : List Char) : Option RawVar :=
  match splitCh '-' l with
  | [chr, posS, refS, altS] =>
    match parseNat posS with
    | some pos =>
        if pos = 0 then none
        else some ⟨assembly ++ ':' :: chr, pos - 1, pos - 1 + refS.length, some refS, altS⟩
    | none => none
  | _ => none

/-- Parse a Beacon expression `chr : pos ref > alt` (1-based position,
whitespace insensitive); the chromosome is qualified by the default
assembly. -/
def parseBeacon (assembly : List Char) (l : List Char) : Option RawVar :=
  let t := l.filter (· ≠ ' ')
  match splitCh ':' t with
  | [chr, rest] =>
    let posS := rest.takeWhile isDigitCh
    let rest2 := rest.dropWhile isDigitCh
    match splitCh '>' rest2 with
    | [refS, altS] =>
      match parseNat posS with
      | some pos =>
          if pos = 0 then none
          else some ⟨assembly ++ ':' :: chr, pos - 1, pos - 1 + refS.length, some refS, altS⟩
      | none => none
    | _ => none
  | _ => none

/-- Parse the genomic HGVS forms used by the claims: the substitution
`acc:g.<pos><ref)>(alt)` and the range deletion `acc:g.<start>_<stop>del`
(the full grammar belongs to an external collaborator). -/
def parseHgvs (l : List Char) : Option RawVar :=
  match splitCh ':' l with
  | [acc, rest] =>
    match rest with
    | 'g' :: '.' :: body =>
      let posS := body.takeWhile isDigitCh
      let body2 := body.dropWhile isDigitCh
      match parseNat posS with
      | none => none
      | some pos =>
        match body2 with
        | '_' :: body3 =>
          let posS2 := body3.takeWhile isDigitCh
          let body4 := body3.dropWhile isDigitCh
          match parseNat posS2, body4 with
          | some pos2, ['d', 'e', 'l'] =>
              if pos = 0 ∨ pos2 < pos then none
              else some ⟨acc, pos - 1, pos2, none, []⟩
          | _, _ => none
        | _ =>
          match splitCh '>' body2 with
          | [refS, altS] =>
              if pos = 0 ∨ refS.length ≠ 1 then none
              else some ⟨acc, pos - 1, pos, some refS, altS⟩
          | _ => none
    | _ => none
  | _ => none

/-- The identified dump of a SequenceLocation: its id, its digest, and the
location value (mirroring the notebook `model_dump` output, where the
embedded SequenceReference has no id and no digest fields). -/
structure SequenceLocationDump where
  id : String
  digest : String
  value : SequenceLocation
deriving DecidableEq

/-- The identified dump of an Allele returned by `translate_from`. -/
structure AlleleDump where
  id : String
  digest : String
  location : SequenceLocationDump
  state : SequenceExpression
deriving DecidableEq

/-- Identify an Allele bottom-up: populate digest and id at the location,
then at the Allele itself. -/
def identifyAllele (a : Allele) : AlleleDump :=
  ⟨a.identify, .mk a.digest, ⟨a.location.identify, .mk a.location.digest, a.location⟩, a.state⟩

/-- The Allele produced by `translate_from` before identification: parse,
resolve the refget accession, validate the stated reference residues
against the repository, build the raw Allele, and normalize against the
served window. -/
def translateFromAllele (repo : SeqRepo) (expr : String) (fmt : Fmt) : Option Allele :=
  let raw? := match fmt with
    | .spdi => parseSpdi expr.data
    | .hgvs => parseHgvs expr.data
    | .gnomad => parseGnomad "GRCh38".data expr.data
    | .beacon => parseBeacon "GRCh38".data expr.data
  match raw? with
  | none => none
  | some raw =>
    match repo.toRefget raw.acc with
    | none => none
    | some refget =>
      match repo.window refget with
      | none => none
      | some (off, win) =>
        if raw.start < off ∨ off + win.length < raw.stop ∨ raw.stop < raw.start then none
        else
          let build := fun (_ : Unit) =>
            let a0 : Allele := ⟨⟨⟨refget⟩, raw.start - off, raw.stop - off⟩, .literal raw.alt⟩
            let na := normalizeAllele win a0
            some (Allele.mk ⟨⟨refget⟩, na.location.start + off, na.location.stop + off⟩ na.state)
          match raw.refChk with
          | some r => if r = sl win (raw.start - off) (raw.stop - off) then build () else none
          | none => build ()

/-- `AlleleTranslator.translate_from` with the default flags
(`normalize = true`, `identify = true`): the normalized Allele, identified
bottom-up. -/
def translateFrom (repo : SeqRepo) (expr : String) (fmt : Fmt) : Option AlleleDump :=
  (translateFromAllele repo expr fmt).map identifyAllele

/-- The identified dump of a CopyNumberChange returned by the CNV
translator. -/
structure CopyNumberChangeDump where
  id : String
  digest : String
  location : SequenceLocationDump
  copyChange : List Char
deriving DecidableEq

/-- The identified dump of a CopyNumberCount returned by the CNV
translator. -/
structure CopyNumberCountDump where
  id : String
  digest : String
  location : SequenceLocationDump
  copies : Nat
deriving DecidableEq

/-- `CnvTranslator.translate_from` with a `copy_change` keyword: parse the
HGVS expression, resolve the reference, and identify the resulting
CopyNumberChange (no sequence normalization is involved). -/
def mkChangeDump (c : CopyNumberChange) : CopyNumberChangeDump :=
  ⟨c.identify, .mk c.digest, ⟨c.location.identify, .mk c.location.digest, c.location⟩,
   c.copyChange⟩

def cnvTranslateFromChange (repo : SeqRepo) (expr : String) (copyChange : List Char) :
    Option CopyNumberChangeDump :=
  (match parseHgvs expr.data with
   | none => none
   | some raw =>
     match repo.toRefget raw.acc with
     | none => none
     | some refget =>
       some (CopyNumberChange.mk ⟨⟨refget⟩, raw.start, raw.stop⟩ copyChange)).map mkChangeDump

/-- `CnvTranslator.translate_from` with a `copies` keyword: parse the HGVS
expression, resolve the reference, and identify the resulting
CopyNumberCount. -/
def mkCountDump (c : CopyNumberCount) : CopyNumberCountDump :=
  ⟨c.identify, .mk c.digest, ⟨c.location.identify, .mk c.location.digest, c.location⟩,
   c.copies⟩

def cnvTranslateFromCount (repo : SeqRepo) (expr : String) (copies : Nat) :
    Option CopyNumberCountDump :=
  (match parseHgvs expr.data with
   | none => none
   | some raw =>
     match repo.toRefget raw.acc with
     | none => none
     | some refget =>
       some (CopyNumberCount.mk ⟨⟨refget⟩, raw.start, raw.stop⟩ copies)).map mkCountDump

/-- Render one HGVS expression for an Allele against a given reference
alias: the substitution form for single-residue replacements, the delins
form otherwise. -/
def hgvsOf (win : List Char) (off : Nat) (acc : List Char) (start stop : Nat)
    (seq : List Char) : String :=
  if stop = start + 1 ∧ seq.length = 1 then
    .mk (acc ++ ':' :: 'g' :: '.' :: natDigits stop
          ++ sl win (start - off) (stop - off) ++ '>' :: seq)
  else
    .mk (acc ++ ':' :: 'g' :: '.' :: natDigits (start + 1) ++ '_' :: natDigits stop
          ++ "delins".data ++ seq)

/-- `AlleleTranslator.translate_to`: SPDI yields exactly one expression,
whose deletion slot is rendered as the integer length of the reference
span; HGVS yields one expression per reference-sequence alias; gnomAD and
Beacon are `translate_from`-only. -/
def translateTo (repo : SeqRepo) (a : Allele) (fmt : Fmt) : Option (List String) :=
  match fmt with
  | .gnomad => none
  | .beacon => none
  | .spdi =>
    match a.state with
    | .literal seq =>
      match repo.refseqAlias a.location.sequenceReference.refgetAccession with
      | some acc => some [.mk (acc ++ ':' :: natDigits a.location.start
          ++ ':' :: natDigits (a.location.stop - a.location.start) ++ ':' :: seq)]
      | none => none
    | _ => none
  | .hgvs =>
    match a.state with
    | .literal seq =>
      match repo.window a.location.sequenceReference.refgetAccession with
      | none => none
      | some (off, win) =>
        match repo.aliases a.location.sequenceReference.refgetAccession with
        | [] => none
        | al :: als => some ((al :: als).map fun acc =>
            hgvsOf win off acc a.location.start a.location.stop seq)
    | _ => none

/-- The refget accession of GRCh38 chromosome 5, from the notebooks. -/
def sq5 : List Char := "SQ.aUiQCzCPZ2d0csHbMSbh2NzInhonSXwI".data

/-- The repository fixture serving the claims' variant on GRCh38
chromosome 5: alias resolution as recorded in the SeqRepo notebook, and
the reference window around position 80656488 (residue `C`). -/
def repoC1 : SeqRepo where
  toRefget := fun acc =>
    if acc = "NC_000005.10".data ∨ acc = "GRCh38:5".data then some sq5 else none
  refseqAlias := fun r => if r = sq5 then some "NC_000005.10".data else none
  aliases := fun r => if r = sq5 then ["NC_000005.10".data, "GRCh38:5".data] else []
  window := fun r => if r = sq5 then some (80656488, "C".data) else none

/-! ## Enref / Deref engine

Modelled from the spec (§4.3) and the inlined/referenced-objects notebook:
`enref` replaces each identifiable child with its identifier, stashing the
child and the referenced form in an object store; `deref` looks each
identifier up and re-inlines it, failing with `UnknownReference` when an
identifier is absent from the store. -/

/-- A referable attribute: an inlined SequenceLocation or an identifier. -/
inductive LocSlot where
  | inl (l : SequenceLocation)
  | ref (id : String)
deriving DecidableEq

/-- The referenced form of an Allele (its location may be an id string). -/
structure RAllele where
  location : LocSlot
  state : SequenceExpression
deriving DecidableEq

/-- Objects an object store can hold. -/
inductive VrsObj where
  | oLoc (l : SequenceLocation)
  | oAllele (a : RAllele)
deriving DecidableEq

/-- An object store: a mapping from `ga4gh:` identifiers to objects
(a plain association list is a conforming implementation). -/
def Store : Type := List (String × VrsObj)

/-- Store insertion (`put`). -/
def storePut (s : Store) (k : String) (v : VrsObj) : Store := (k, v) :: s

/-- Store lookup (`get`). -/
def storeGet (s : Store) (k : String) : Option VrsObj :=
  match s with
  | [] => none
  | (k2, v) :: rest => if k2 = k then some v else storeGet rest k

/-- The digest contribution of a referable location slot: an inlined
location contributes its digest; a reference contributes the digest part
of its `ga4gh:SL.`-prefixed identifier. -/
def LocSlot.digestPart : LocSlot → List Char
  | .inl l => l.digest
  | .ref i => i.data.drop 9

/-- Canonical serialization of a referenced-form Allele: identical to the
inlined form's, since the location slot contributes its digest either
way. -/
def RAllele.serial (r : RAllele) : List Char :=
  jObjOf [jStrField "location".data r.location.digestPart,
          jObjField "state".data r.state.serial,
          jStrField "type".data "Allele".data]

/-- The namespaced identifier of a referenced-form Allele. -/
def RAllele.identify (r : RAllele) : String :=
  .mk ("ga4gh:VA.".data ++ serialDigest r.serial)

/-- `enref`: depth-first, children first — compute the location's id,
store the location, replace it by its id in the Allele, store the
referenced Allele under its own id, and return the referenced form with
the updated store. -/
def vrsEnref (a : Allele) (store : Store) : RAllele × Store :=
  let lid := a.location.identify
  let r : RAllele := ⟨.ref lid, a.state⟩
  (r, storePut (storePut store lid (.oLoc a.location)) a.identify (.oAllele r))

/-- Deref failure kinds: an identifier absent from the store, or present
but mapping to an object of the wrong kind. -/
inductive DerefErr where
  | unknownReference (id : String)
  | wrongKind (id : String)
deriving DecidableEq

/-- `deref`: wherever a referable slot holds an identifier, look it up in
the store and substitute the retrieved object. -/
def vrsDeref (r : RAllele) (store : Store) : Except DerefErr Allele :=
  match r.location with
  | .inl l => .ok ⟨l, r.state⟩
  | .ref i =>
    match storeGet store i with
    | none => .error (.unknownReference i)
    | some (.oLoc l) => .ok ⟨l, r.state⟩
    | some (.oAllele _) => .error (.wrongKind i)

/-- The refget accession of GRCh38 chromosome 14, from the CnvTranslator
notebook. -/
def sq14 : List Char := "SQ.eK4D2MosgK_ivBkgi6FVPg5UXs1bYESm".data

/-- The repository fixture for the CnvTranslator notebook's deletion on
GRCh38 chromosome 14 (no sequence window is needed for CNV translation). -/
def repoC6 : SeqRepo where
  toRefget := fun acc => if acc = "NC_000014.9".data then some sq14 else none
  refseqAlias := fun _ => none
  aliases := fun _ => []
  window := fun _ => none

/-- The identified dump shared by all four grammars for the variant of
claim C1. -/
def dumpC1 : AlleleDump := identifyAllele alleleC1

/-! ## Theorems -/

example : String.mk (sha512t24u []) = "z4PhNX7vuL3xVChQ1m2AB9Yg5AULVxXc" := by decide

example : String.mk (sha512t24u ("abc".data.map Char.toNat))
    = "3a81oZNherrMQXNJriBBMRLm-k6JqX6i" := by decide

example :
    normalizeAllele "TCAGCAGG".data ⟨⟨srX, 1, 1⟩, .literal "CAG".data⟩
      = ⟨⟨srX, 1, 7⟩, .rle 9 3⟩ := by decide

example :
    normalizeAllele "TCTGG".data ⟨⟨srX, 1, 1⟩, .literal "CA".data⟩
      = ⟨⟨srX, 1, 2⟩, .literal "CAC".data⟩ := by decide

example :
    normalizeAllele "TCAGCAGG".data ⟨⟨srX, 1, 4⟩, .literal [] ⟩
      = ⟨⟨srX, 1, 7⟩, .rle 3 3⟩ := by decide

example :
    normalizeAllele "ACGT".data ⟨⟨srX, 1, 2⟩, .literal "T".data⟩
      = ⟨⟨srX, 1, 2⟩, .literal "T".data⟩ := by decide


/-! ### Digest shape lemmas -/

theorem beBytes_length : ∀ (k n : Nat), (beBytes k n).length = k := by
  intro k
  induction k with
  | zero => intro n; rfl
  | succ k ih => intro n; simp [beBytes, ih]

theorem sha512Rounds_length :
    ∀ (ps : List (Nat × Nat)) (st : List Nat), st.length = 8 →
      (sha512Rounds ps st).length = 8 := by
  intro ps
  induction ps with
  | nil => intro st h; simpa [sha512Rounds] using h
  | cons p rest ih =>
      intro st h
      obtain ⟨k, w⟩ := p
      rcases st with _ | ⟨a, _ | ⟨b, _ | ⟨c, _ | ⟨d, _ | ⟨e, _ | ⟨f, _ | ⟨g, _ | ⟨h8, _ | ⟨x, t⟩⟩⟩⟩⟩⟩⟩⟩⟩ <;>
        simp_all [sha512Rounds]

theorem sha512Block_length (st b : List Nat) (h : st.length = 8) :
    (sha512Block st b).length = 8 := by
  have hr := sha512Rounds_length (sha512K.zip (schedRev 64 b.reverse).reverse) st h
  simp [sha512Block, List.length_zip, h, hr]

theorem foldl_sha512Block_length :
    ∀ (bs : List (List Nat)) (st : List Nat), st.length = 8 →
      (bs.foldl sha512Block st).length = 8 := by
  intro bs
  induction bs with
  | nil => intro st h; simpa using h
  | cons b rest ih => intro st h; exact ih _ (sha512Block_length st b h)

theorem flatMap_beBytes8_length :
    ∀ (l : List Nat), (l.flatMap (beBytes 8)).length = 8 * l.length := by
  intro l
  induction l with
  | nil => rfl
  | cons x rest ih =>
      simp only [List.flatMap_cons, List.length_append, beBytes_length, ih, List.length_cons]
      ring

theorem sha512_length (m : List Nat) : (sha512 m).length = 64 := by
  have h := foldl_sha512Block_length
    (toBlocks (m.length / 128 + 2) (bytesToWords (sha512Pad m))) sha512H0 rfl
  show ((List.foldl sha512Block sha512H0
      (toBlocks (m.length / 128 + 2) (bytesToWords (sha512Pad m)))).flatMap (beBytes 8)).length = 64
  rw [flatMap_beBytes8_length, h]

theorem b64url_length_tripled :
    ∀ (l : List Nat), l.length % 3 = 0 → (b64url l).length = l.length / 3 * 4 := by
  intro l
  induction l using b64url.induct with
  | case1 => intro _; rfl
  | case2 b1 => intro h; simp at h
  | case3 b1 b2 => intro h; simp at h
  | case4 b1 b2 b3 rest ih =>
      intro h
      simp only [List.length_cons] at h ⊢
      have h3 : rest.length % 3 = 0 := by omega
      have ih2 := ih h3
      simp only [b64url, List.length_cons, ih2]
      omega

theorem serialDigest_length (s : List Char) : (serialDigest s).length = 32 := by
  have h64 := sha512_length (s.map Char.toNat)
  have htake : ((sha512 (s.map Char.toNat)).take 24).length = 24 := by
    simp [List.length_take, h64]
  have := b64url_length_tripled ((sha512 (s.map Char.toNat)).take 24) (by simp [htake])
  simpa [serialDigest, sha512t24u, htake] using this

/-! ### Claim theorems: identifiers -/

/-- C1: the single variant expressed in all four grammars — SPDI
`NC_000005.10:80656488:C:T`, HGVS `NC_000005.10:g.80656489C>T`, gnomAD
`5-80656489-C-T` and Beacon `5 : 80656489 C > T` — translates under
`translate_from` (default normalize and identify flags) to byte-identical
identified Alleles, each with identifier
`ga4gh:VA.ebezGL6HoAhtGJyVnB_mE5BH18ntKev4` and with the same intermediate
SequenceLocation identifier `ga4gh:SL.JiLRuuyS5wefF_6-Vw7m3Yoqqb2YFkss`. -/
theorem four_grammars_same_identifier :
    translateFrom repoC1 "NC_000005.10:80656488:C:T" .spdi = some dumpC1 ∧
    translateFrom repoC1 "NC_000005.10:g.80656489C>T" .hgvs = some dumpC1 ∧
    translateFrom repoC1 "5-80656489-C-T" .gnomad = some dumpC1 ∧
    translateFrom repoC1 "5 : 80656489 C > T" .beacon = some dumpC1 ∧
    dumpC1.id = "ga4gh:VA.ebezGL6HoAhtGJyVnB_mE5BH18ntKev4" ∧
    dumpC1.location.id = "ga4gh:SL.JiLRuuyS5wefF_6-Vw7m3Yoqqb2YFkss" :=
  ⟨rfl, rfl, rfl, rfl, by decide, by decide⟩

/-- C2 counterexample: the digest portion of a recorded GA4GH identifier
has 32 characters, not 48 — the Allele of the notebooks' own fixture
carries the published identifier, whose digest is 32 characters long. -/
theorem digest_portion_not_48_chars :
    alleleC1.identify = "ga4gh:VA.ebezGL6HoAhtGJyVnB_mE5BH18ntKev4" ∧
    alleleC1.digest.length = 32 ∧ ¬ alleleC1.digest.length = 48 :=
  ⟨by decide, by decide, by decide⟩

/-- C2 (amended): `identify` computes SHA-512 over the canonical
serialization, takes the first 24 bytes (not 32), base64url-encodes them
without padding to a 32-character digest (not 48), and prefixes
`ga4gh:<T>.` with the per-type prefix (VA, CN, CX, SL); every digest is
exactly 32 characters long. -/
theorem identify_digest_shape :
    (∀ l : SequenceLocation,
        l.digest = b64url ((sha512 (l.serial.map Char.toNat)).take 24) ∧
        l.digest.length = 32 ∧ l.identify = .mk ("ga4gh:SL.".data ++ l.digest)) ∧
    (∀ a : Allele,
        a.digest = b64url ((sha512 (a.serial.map Char.toNat)).take 24) ∧
        a.digest.length = 32 ∧ a.identify = .mk ("ga4gh:VA.".data ++ a.digest)) ∧
    (∀ c : CopyNumberCount,
        c.digest = b64url ((sha512 (c.serial.map Char.toNat)).take 24) ∧
        c.digest.length = 32 ∧ c.identify = .mk ("ga4gh:CN.".data ++ c.digest)) ∧
    (∀ c : CopyNumberChange,
        c.digest = b64url ((sha512 (c.serial.map Char.toNat)).take 24) ∧
        c.digest.length = 32 ∧ c.identify = .mk ("ga4gh:CX.".data ++ c.digest)) :=
  ⟨fun l => ⟨rfl, serialDigest_length l.serial, rfl⟩,
   fun a => ⟨rfl, serialDigest_length a.serial, rfl⟩,
   fun c => ⟨rfl, serialDigest_length c.serial, rfl⟩,
   fun c => ⟨rfl, serialDigest_length c.serial, rfl⟩⟩

/-- C6 counterexample: translating `NC_000014.9:g.45002867_45015056del`
with the loss copy change (`efo:0030067`, per the CnvTranslator notebook)
yields `ga4gh:CX.0M5VkV5v504_laQURFMEsqzZGcOF9YEw` — as recorded in the
notebook — not `ga4gh:CX.XQt04FoCIptvgp6GtE2qjEaUJC7cr1wo`. -/
theorem cnv_loss_identifier_refuted :
    (cnvTranslateFromChange repoC6 "NC_000014.9:g.45002867_45015056del"
        "efo:0030067".data).map (fun d => d.id)
      = some "ga4gh:CX.0M5VkV5v504_laQURFMEsqzZGcOF9YEw" ∧
    ¬ ((cnvTranslateFromChange repoC6 "NC_000014.9:g.45002867_45015056del"
        "efo:0030067".data).map (fun d => d.id)
      = some "ga4gh:CX.XQt04FoCIptvgp6GtE2qjEaUJC7cr1wo") :=
  ⟨by decide, by decide⟩

/-- C6 (amended): translating the HGVS deletion
`NC_000014.9:g.45002867_45015056del` with copyChange = loss
(`efo:0030067`) into a CopyNumberChange yields the identifier
`ga4gh:CX.0M5VkV5v504_laQURFMEsqzZGcOF9YEw` over location
`ga4gh:SL.GSJAEJXFDz7Nq6VlJj5NTEku48MmteUU`; the spec's expected value
`XQt04FoCIptvgp6GtE2qjEaUJC7cr1wo` is the digest that would arise only if
the copy change were serialized in upper case as `EFO:0030067`. -/
theorem cnv_loss_identifier :
    (cnvTranslateFromChange repoC6 "NC_000014.9:g.45002867_45015056del"
        "efo:0030067".data).map (fun d => d.id)
      = some "ga4gh:CX.0M5VkV5v504_laQURFMEsqzZGcOF9YEw" ∧
    (cnvTranslateFromChange repoC6 "NC_000014.9:g.45002867_45015056del"
        "efo:0030067".data).map (fun d => d.location.id)
      = some "ga4gh:SL.GSJAEJXFDz7Nq6VlJj5NTEku48MmteUU" ∧
    CopyNumberChange.digest ⟨⟨⟨sq14⟩, 45002866, 45015056⟩, "EFO:0030067".data⟩
      = "XQt04FoCIptvgp6GtE2qjEaUJC7cr1wo".data :=
  ⟨by decide, by decide, by decide⟩

/-! ### Claim theorems: translate_to -/

/-- C10: for every Allele with a literal-sequence state, the SPDI string
returned by `translate_to(allele, spdi)` renders the deletion slot as the
integer length of the reference span, not the deleted residues; in
particular the Allele built from SPDI `NC_000005.10:80656488:C:T` is
emitted back as `NC_000005.10:80656488:1:T`. -/
theorem spdi_deletion_slot_is_length :
    (∀ (repo : SeqRepo) (a : Allele) (seq acc : List Char),
      a.state = .literal seq →
      repo.refseqAlias a.location.sequenceReference.refgetAccession = some acc →
      translateTo repo a .spdi = some [.mk (acc ++ ':' :: natDigits a.location.start
        ++ ':' :: natDigits (a.location.stop - a.location.start) ++ ':' :: seq)]) ∧
    (translateFrom repoC1 "NC_000005.10:80656488:C:T" .spdi).bind
        (fun d => translateTo repoC1 ⟨d.location.value, d.state⟩ .spdi)
      = some ["NC_000005.10:80656488:1:T"] := by
  constructor
  · intro repo a seq acc hs hr
    simp [translateTo, hs, hr]
  · rfl

/-- Witness for C10 at the concrete fixture. -/
theorem spdi_deletion_slot_is_length_witness :
    translateTo repoC1 alleleC1 .spdi = some ["NC_000005.10:80656488:1:T"] := by
  have h := spdi_deletion_slot_is_length.1 repoC1 alleleC1 "T".data "NC_000005.10".data
    rfl (by decide)
  exact h.trans (by decide)

/-- C7: `translate_to` returns a list of equivalent HGVS expressions, one
per reference-sequence alias, for HGVS; always exactly one expression for
SPDI; and is not available for gnomAD or Beacon (translate_from only).
Alleles whose state is a ReferenceLengthExpression are not expressible in
either grammar. -/
theorem translate_to_result_arity :
    ∀ (repo : SeqRepo) (a : Allele),
      translateTo repo a .gnomad = none ∧
      translateTo repo a .beacon = none ∧
      (∀ seq acc, a.state = .literal seq →
        repo.refseqAlias a.location.sequenceReference.refgetAccession = some acc →
        ∃ s, translateTo repo a .spdi = some [s]) ∧
      (∀ seq off win al als, a.state = .literal seq →
        repo.window a.location.sequenceReference.refgetAccession = some (off, win) →
        repo.aliases a.location.sequenceReference.refgetAccession = al :: als →
        (translateTo repo a .hgvs).map List.length = some (al :: als).length) ∧
      (∀ len rsl, a.state = .rle len rsl →
        translateTo repo a .spdi = none ∧ translateTo repo a .hgvs = none) := by
  intro repo a
  refine ⟨rfl, rfl, ?_, ?_, ?_⟩
  · intro seq acc hs hr
    exact ⟨.mk (acc ++ ':' :: natDigits a.location.start
      ++ ':' :: natDigits (a.location.stop - a.location.start) ++ ':' :: seq),
      by simp [translateTo, hs, hr]⟩
  · intro seq off win al als hs hw hal
    simp [translateTo, hs, hw, hal]
  · intro len rsl hs
    exact ⟨by simp [translateTo, hs], by simp [translateTo, hs]⟩

/-- Witness for C7 at the concrete fixture: chromosome 5 has the two
aliases recorded in the notebook, so HGVS yields two expressions while
SPDI yields exactly one. -/
theorem translate_to_result_arity_witness :
    translateTo repoC1 alleleC1 .gnomad = none ∧
    translateTo repoC1 alleleC1 .beacon = none ∧
    (∃ s, translateTo repoC1 alleleC1 .spdi = some [s]) ∧
    (translateTo repoC1 alleleC1 .hgvs).map List.length = some 2 := by
  obtain ⟨h1, h2, h3, h4, _⟩ := translate_to_result_arity repoC1 alleleC1
  refine ⟨h1, h2, h3 "T".data "NC_000005.10".data rfl (by decide), ?_⟩
  exact h4 "T".data 80656488 "C".data "NC_000005.10".data ["GRCh38:5".data]
    rfl (by decide) (by decide)

/-! ### Claim theorems: identifier/digest invariants of translate_from -/

theorem translateFrom_shape (repo : SeqRepo) (expr : String) (fmt : Fmt) (d : AlleleDump)
    (h : translateFrom repo expr fmt = some d) : ∃ a : Allele, d = identifyAllele a := by
  rw [translateFrom, Option.map_eq_some'] at h
  obtain ⟨a, _, ha⟩ := h
  exact ⟨a, ha.symm⟩

theorem cnvChange_shape (repo : SeqRepo) (expr : String) (cc : List Char)
    (d : CopyNumberChangeDump) (h : cnvTranslateFromChange repo expr cc = some d) :
    ∃ c : CopyNumberChange, d = mkChangeDump c := by
  rw [cnvTranslateFromChange, Option.map_eq_some'] at h
  obtain ⟨c, _, hc⟩ := h
  exact ⟨c, hc.symm⟩

theorem cnvCount_shape (repo : SeqRepo) (expr : String) (n : Nat)
    (d : CopyNumberCountDump) (h : cnvTranslateFromCount repo expr n = some d) :
    ∃ c : CopyNumberCount, d = mkCountDump c := by
  rw [cnvTranslateFromCount, Option.map_eq_some'] at h
  obtain ⟨c, _, hc⟩ := h
  exact ⟨c, hc.symm⟩

/-- C9: every object returned by translate_from with identify enabled
satisfies, at each identifiable nesting level (the Allele or CopyNumber
root and its SequenceLocation), `id = "ga4gh:" ++ prefix ++ "." ++ digest`
— so the separately stored digest field is exactly the suffix of the id —
while the embedded SequenceReference is serialized inline with only its
refgetAccession and type keys (it carries no id and no digest). -/
theorem translate_from_identifier_invariant :
    (∀ (repo : SeqRepo) (expr : String) (fmt : Fmt) (d : AlleleDump),
      translateFrom repo expr fmt = some d →
        d.id = "ga4gh:VA." ++ d.digest ∧
        d.location.id = "ga4gh:SL." ++ d.location.digest) ∧
    (∀ (repo : SeqRepo) (expr : String) (cc : List Char) (d : CopyNumberChangeDump),
      cnvTranslateFromChange repo expr cc = some d →
        d.id = "ga4gh:CX." ++ d.digest ∧
        d.location.id = "ga4gh:SL." ++ d.location.digest) ∧
    (∀ (repo : SeqRepo) (expr : String) (n : Nat) (d : CopyNumberCountDump),
      cnvTranslateFromCount repo expr n = some d →
        d.id = "ga4gh:CN." ++ d.digest ∧
        d.location.id = "ga4gh:SL." ++ d.location.digest) ∧
    (∀ l : SequenceLocation, l.serial = jObjOf [jNumField "end".data l.stop,
        jObjField "sequenceReference".data
          (jObjOf [jStrField "refgetAccession".data l.sequenceReference.refgetAccession,
                   jStrField "type".data "SequenceReference".data]),
        jNumField "start".data l.start,
        jStrField "type".data "SequenceLocation".data]) := by
  refine ⟨?_, ?_, ?_, fun l => rfl⟩
  · intro repo expr fmt d h
    obtain ⟨a, rfl⟩ := translateFrom_shape repo expr fmt d h
    exact ⟨rfl, rfl⟩
  · intro repo expr cc d h
    obtain ⟨c, rfl⟩ := cnvChange_shape repo expr cc d h
    exact ⟨rfl, rfl⟩
  · intro repo expr n d h
    obtain ⟨c, rfl⟩ := cnvCount_shape repo expr n d h
    exact ⟨rfl, rfl⟩

/-- Witness for C9 at the concrete fixture of claim C1. -/
theorem translate_from_identifier_invariant_witness :
    dumpC1.id = "ga4gh:VA." ++ dumpC1.digest ∧
    dumpC1.location.id = "ga4gh:SL." ++ dumpC1.location.digest := by
  have h := translate_from_identifier_invariant.1 repoC1
    "NC_000005.10:80656488:C:T" .spdi dumpC1 rfl
  exact h

/-! ### Claim theorems: enref / deref -/

theorem drop9_ga4gh_sl (d : List Char) :
    (String.mk ("ga4gh:SL.".data ++ d)).data.drop 9 = d := rfl

theorem va_id_ne_sl_id (x y : List Char) :
    String.mk ("ga4gh:VA.".data ++ x) ≠ String.mk ("ga4gh:SL.".data ++ y) := by
  intro h
  have h2 : "ga4gh:VA.".data ++ x = "ga4gh:SL.".data ++ y := congrArg String.data h
  have hV : ("ga4gh:VA.".data ++ x)[6]? = some 'V' := rfl
  rw [h2] at hV
  have hS : ("ga4gh:SL.".data ++ y)[6]? = some 'S' := rfl
  rw [hV] at hS
  exact absurd (Option.some.inj hS) (by decide)

/-- C3: for every well-formed Allele and every object store, deref of
enref returns the original Allele — hence
`identify (deref (enref x store) store) = identify x` — and the
referenced form produced by enref has the same identifier as the inlined
form (identical identifiers at every node: the location is stored intact
under its own identifier). -/
theorem enref_deref_identify_stable :
    ∀ (a : Allele) (store : Store),
      vrsDeref (vrsEnref a store).1 (vrsEnref a store).2 = Except.ok a ∧
      (∀ a2, vrsDeref (vrsEnref a store).1 (vrsEnref a store).2 = Except.ok a2 →
        a2.identify = a.identify) ∧
      (vrsEnref a store).1.identify = a.identify ∧
      storeGet (vrsEnref a store).2 a.location.identify = some (.oLoc a.location) := by
  intro a store
  have hne : a.identify ≠ a.location.identify := va_id_ne_sl_id a.digest a.location.digest
  have hget : storeGet (vrsEnref a store).2 a.location.identify = some (.oLoc a.location) := by
    show storeGet (storePut (storePut store a.location.identify (.oLoc a.location))
      a.identify (.oAllele _)) a.location.identify = some (.oLoc a.location)
    simp only [storeGet, storePut]
    rw [if_neg hne]
    simp
  have hdp0 : (LocSlot.ref a.location.identify).digestPart
      = a.location.identify.data.drop 9 := rfl
  have hdp : (LocSlot.ref a.location.identify).digestPart = a.location.digest := by
    rw [hdp0]
    exact drop9_ga4gh_sl a.location.digest
  have hser : RAllele.serial ⟨.ref a.location.identify, a.state⟩ = Allele.serial a := by
    simp only [RAllele.serial, Allele.serial, hdp]
  have hid : (vrsEnref a store).1.identify = a.identify :=
    congrArg (fun s => String.mk ("ga4gh:VA.".data ++ serialDigest s)) hser
  refine ⟨?_, ?_, hid, hget⟩
  · show vrsDeref ⟨.ref a.location.identify, a.state⟩ _ = Except.ok a
    simp only [vrsDeref]
    rw [hget]
  · intro a2 h2
    have h3 : vrsDeref (vrsEnref a store).1 (vrsEnref a store).2 = Except.ok a := by
      show vrsDeref ⟨.ref a.location.identify, a.state⟩ _ = Except.ok a
      simp only [vrsDeref]
      rw [hget]
    rw [h3] at h2
    rw [Except.ok.inj h2]

/-- C8: `deref` fails with `UnknownReference i` exactly when the
referenced form holds the identifier `i` in a referable slot and `i` is
absent from the object store (an identifier present but bound to an
object of the wrong kind is a different failure); `enref` is a total pure
function — it returns a result on every input. -/
theorem deref_unknown_reference_iff :
    (∀ (r : RAllele) (store : Store) (i : String),
      vrsDeref r store = .error (.unknownReference i) ↔
        r.location = .ref i ∧ storeGet store i = none) ∧
    (∀ (a : Allele) (store : Store), ∃ out : RAllele × Store, vrsEnref a store = out) := by
  constructor
  · intro r store i
    obtain ⟨slot, st⟩ := r
    cases slot with
    | inl l => simp [vrsDeref]
    | ref j =>
      rcases hg : storeGet store j with _ | obj
      · constructor
        · intro h
          simp only [vrsDeref, hg] at h
          have := DerefErr.unknownReference.inj (Except.error.inj h)
          subst this
          exact ⟨rfl, hg⟩
        · rintro ⟨hl, hn⟩
          have : j = i := LocSlot.ref.inj hl
          subst this
          simp [vrsDeref, hg]
      · constructor
        · intro h
          cases obj <;> simp [vrsDeref, hg] at h
        · rintro ⟨hl, hn⟩
          have : j = i := LocSlot.ref.inj hl
          subst this
          rw [hg] at hn
          exact absurd hn (by simp)
  · intro a store
    exact ⟨vrsEnref a store, rfl⟩

/-! ### Claim theorems: normalizer step 4 -/

/-- C4: in step 4 of fully-justified normalization, for an indel whose
bubble sequence `u` has been rolled to interval `(L, H)`: when `H − L` is
an exact positive multiple of `|u|` and `|u| ≥ 2`, a
ReferenceLengthExpression with `length = (H − L) + Δ` (realized over Nat
as `H − L + |A'| − |R'|`, with Δ the trimmed length change, equal to
`len A − len R` since trimming shortens both sides equally) and
`repeatSubunitLength = |u|` is emitted; in every other case a
LiteralSequenceExpression with sequence `reference[L:s] ++ A' ++
reference[e:H]` is emitted. -/
theorem normalize_step4_emit (ref : List Char) (sr : SequenceReference)
    (st en : Nat) (A : List Char) :
    ∀ (R : List Char) (p q s e : Nat) (R1 A1 u : List Char) (L H : Nat),
      R = sl ref st en →
      p = cpl R A →
      q = cpl (R.drop p).reverse (A.drop p).reverse →
      s = st + p → e = en - q →
      R1 = (R.drop p).take (R.length - p - q) →
      A1 = (A.drop p).take (A.length - p - q) →
      (R1 = [] ∧ A1 ≠ []) ∨ (R1 ≠ [] ∧ A1 = []) →
      u = (if R1 = [] then A1 else R1) →
      L = rollL ref s u → H = rollR ref e u →
      ((H - L) % u.length = 0 ∧ 0 < H - L ∧ 2 ≤ u.length →
        normalizeAllele ref ⟨⟨sr, st, en⟩, .literal A⟩
          = ⟨⟨sr, L, H⟩, .rle (H - L + A1.length - R1.length) u.length⟩) ∧
      (¬ ((H - L) % u.length = 0 ∧ 0 < H - L ∧ 2 ≤ u.length) →
        normalizeAllele ref ⟨⟨sr, st, en⟩, .literal A⟩
          = ⟨⟨sr, L, H⟩, .literal (sl ref L s ++ A1 ++ sl ref e H)⟩) := by
  intro R p q s e R1 A1 u L H hR hp hq hs he hR1 hA1 hindel hu hL hH
  subst hR hp hq hs he hR1 hA1 hu hL hH
  have hne1 : ¬ ((sl ref st en).drop (cpl (sl ref st en) A)).take
        ((sl ref st en).length - cpl (sl ref st en) A - cpl
          ((sl ref st en).drop (cpl (sl ref st en) A)).reverse
          ((A.drop (cpl (sl ref st en) A)).reverse)) = [] ∨
      ¬ (A.drop (cpl (sl ref st en) A)).take
        (A.length - cpl (sl ref st en) A - cpl
          ((sl ref st en).drop (cpl (sl ref st en) A)).reverse
          ((A.drop (cpl (sl ref st en) A)).reverse)) = [] := by
    rcases hindel with ⟨_, h2⟩ | ⟨h1, _⟩
    · exact Or.inr h2
    · exact Or.inl h1
  constructor
  · intro hcond
    simp only [normalizeAllele]
    rw [if_neg (by tauto), if_neg (by tauto), if_pos hcond]
  · intro hcond
    simp only [normalizeAllele]
    rw [if_neg (by tauto), if_neg (by tauto), if_neg hcond]

/-- Witness for C4: inserting `CAG` next to two `CAG` copies rolls to the
full repeat block and emits a ReferenceLengthExpression. -/
theorem normalize_step4_emit_witness :
    normalizeAllele "TCAGCAGG".data ⟨⟨srX, 1, 1⟩, .literal "CAG".data⟩
      = ⟨⟨srX, 1, 7⟩, .rle 9 3⟩ := by
  have h := (normalize_step4_emit "TCAGCAGG".data srX 1 1 "CAG".data
    [] 0 0 1 1 [] "CAG".data "CAG".data 1 7
    (by decide) (by decide) (by decide) (by decide) (by decide) (by decide)
    (by decide) (Or.inl ⟨rfl, by decide⟩) (by decide) (by decide) (by decide)).1
    (by decide)
  simpa using h

/-! ### Normalization idempotence: list-slice and common-prefix lemmas -/

theorem sl_length (l : List Char) (a b : Nat) (hab : a ≤ b) (hb : b ≤ l.length) :
    (sl l a b).length = b - a := by
  simp [sl, List.length_take, List.length_drop]
  omega

theorem sl_append (l : List Char) (a b c : Nat) (hab : a ≤ b) (hbc : b ≤ c) :
    sl l a b ++ sl l b c = sl l a c := by
  simp only [sl]
  have h1 : c - a = (b - a) + (c - b) := by omega
  rw [h1, List.take_add, List.drop_drop, show a + (b - a) = b from by omega]

theorem cpl_le_left : ∀ (R A : List Char), cpl R A ≤ R.length := by
  intro R
  induction R with
  | nil => intro A; cases A <;> simp [cpl]
  | cons a as ih =>
      intro A
      cases A with
      | nil => simp [cpl]
      | cons b bs =>
          have := ih bs
          by_cases h : a = b <;> simp [cpl, h] <;> omega

theorem cpl_le_right : ∀ (R A : List Char), cpl R A ≤ A.length := by
  intro R
  induction R with
  | nil => intro A; cases A <;> simp [cpl]
  | cons a as ih =>
      intro A
      cases A with
      | nil => simp [cpl]
      | cons b bs =>
          have := ih bs
          by_cases h : a = b <;> simp [cpl, h] <;> omega

theorem cpl_take : ∀ (R A : List Char), R.take (cpl R A) = A.take (cpl R A) := by
  intro R
  induction R with
  | nil => intro A; simp [cpl]
  | cons a as ih =>
      intro A
      cases A with
      | nil => simp [cpl]
      | cons b bs =>
          by_cases h : a = b <;> simp [cpl, h]
          exact ih bs

theorem cpl_mismatch : ∀ (R A : List Char), cpl R A < R.length → cpl R A < A.length →
    R[cpl R A]? ≠ A[cpl R A]? := by
  intro R
  induction R with
  | nil => intro A h; simp at h
  | cons a as ih =>
      intro A hR hA
      cases A with
      | nil => simp at hA
      | cons b bs =>
          by_cases h : a = b
          · rw [show cpl (a :: as) (b :: bs) = cpl as bs + 1 from by simp [cpl, h]] at hR hA ⊢
            simpa using ih bs
              (by simp only [List.length_cons] at hR; omega)
              (by simp only [List.length_cons] at hA; omega)
          · simp [cpl, h]

theorem cpl_ge_of_take_eq : ∀ (R A : List Char) (m : Nat), m ≤ R.length → m ≤ A.length →
    R.take m = A.take m → m ≤ cpl R A := by
  intro R
  induction R with
  | nil =>
      intro A m h _ _
      have hm : m = 0 := by simpa using h
      subst hm
      exact Nat.zero_le _
  | cons a as ih =>
      intro A m hR hA ht
      cases m with
      | zero => exact Nat.zero_le _
      | succ m =>
          cases A with
          | nil => simp at hA
          | cons b bs =>
              simp only [List.take_succ_cons, List.cons.injEq] at ht
              simp only [cpl, ht.1, if_pos]
              exact Nat.succ_le_succ (ih bs m (by simpa using hR) (by simpa using hA) ht.2)

theorem cpl_le_of_get_ne : ∀ (R A : List Char) (m : Nat), R[m]? ≠ A[m]? → cpl R A ≤ m := by
  intro R
  induction R with
  | nil => intro A m _; cases A <;> simp [cpl]
  | cons a as ih =>
      intro A m hne
      cases A with
      | nil => simp [cpl]
      | cons b bs =>
          by_cases h : a = b
          · cases m with
            | zero => subst h; simp at hne
            | succ m =>
                have := ih bs m (by simpa using hne)
                simp [cpl, h]
                omega
          · simp [cpl, h]

theorem cpl_comm : ∀ (R A : List Char), cpl R A = cpl A R := by
  intro R
  induction R with
  | nil => intro A; cases A <;> simp [cpl]
  | cons a as ih =>
      intro A
      cases A with
      | nil => simp [cpl]
      | cons b bs =>
          by_cases h : a = b
          · subst h; simp [cpl, ih bs]
          · simp [cpl, h, Ne.symm h]

theorem cpl_append_left : ∀ (P x y : List Char),
    cpl (P ++ x) (P ++ y) = P.length + cpl x y := by
  intro P
  induction P with
  | nil => intro x y; simp
  | cons c cs ih => intro x y; simp [cpl, ih]; omega

theorem cpl_prefix_full : ∀ (x y : List Char), x.length ≤ y.length →
    x = y.take x.length → cpl x y = x.length := by
  intro x y hlen ht
  have hx : x.take x.length = y.take x.length := by
    rw [List.take_length]
    exact ht
  have h1 := cpl_ge_of_take_eq x y x.length le_rfl hlen hx
  exact Nat.le_antisymm (cpl_le_left x y) h1

/-! ### Normalization idempotence: cyclic-word lemmas -/

theorem cyc_nil : ∀ (n : Nat), cyc [] n = [] := by
  intro n
  cases n <;> rfl

theorem cyc_length : ∀ (n : Nat) (u : List Char), u ≠ [] → (cyc u n).length = n := by
  intro n
  induction n with
  | zero => intro u _; cases u <;> rfl
  | succ n ih =>
      intro u hu
      cases u with
      | nil => exact absurd rfl hu
      | cons d us => simpa [cyc] using ih (us ++ [d]) (by simp)

theorem rotate_ne_nil (u : List Char) (k : Nat) (hu : u ≠ []) : u.rotate k ≠ [] := by
  intro h
  have := congrArg List.length h
  simp [List.length_rotate] at this
  exact hu this

theorem succ_mod (i n : Nat) (hn : 0 < n) : (i + 1) % n = (i % n + 1) % n := by
  conv_lhs => rw [Nat.add_mod]
  rcases Nat.eq_or_lt_of_le hn with h | h
  · simp [← h, Nat.mod_one]
  · rw [Nat.mod_eq_of_lt h]

theorem rot1_cons (d : Char) (us : List Char) : (d :: us).rotate 1 = us ++ [d] := by
  rw [List.rotate_cons_succ, List.rotate_zero]

theorem cyc_getElem? : ∀ (n : Nat) (u : List Char) (i : Nat), u ≠ [] → i < n →
    (cyc u n)[i]? = u[i % u.length]? := by
  intro n
  induction n with
  | zero => intro u i _ h; omega
  | succ n ih =>
      intro u i hu hi
      cases u with
      | nil => exact absurd rfl hu
      | cons d us =>
          cases i with
          | zero => simp [cyc]
          | succ i =>
              have h1 := ih (us ++ [d]) i (by simp) (by omega)
              simp only [cyc, List.getElem?_cons_succ]
              rw [h1]
              simp only [List.length_append, List.length_cons, List.length_nil,
                List.length_singleton]
              rcases Nat.lt_or_ge (i % (us.length + 1)) us.length with hcase | hcase
              · rw [List.getElem?_append_left hcase]
                rw [succ_mod i (us.length + 1) (by omega),
                  Nat.mod_eq_of_lt (by omega : i % (us.length + 1) + 1 < us.length + 1)]
                simp
              · have hj := Nat.mod_lt i (show 0 < us.length + 1 by omega)
                have hje : i % (us.length + 1) = us.length := by omega
                rw [hje, succ_mod i (us.length + 1) (by omega), hje]
                have hz : (us.length + 1) % (us.length + 1) = 0 := by simp
                rw [hz]
                rw [List.getElem?_append_right (le_refl us.length)]
                simp

theorem cyc_add : ∀ (m : Nat) (u : List Char) (k : Nat),
    cyc u (m + k) = cyc u m ++ cyc (u.rotate m) k := by
  intro m
  induction m with
  | zero => intro u k; simp [cyc]
  | succ m ih =>
      intro u k
      cases u with
      | nil => simp [cyc_nil, List.rotate_nil]
      | cons d us =>
          have h1 : (d :: us).rotate (m + 1) = (us ++ [d]).rotate m := by
            rw [List.rotate_cons_succ]
          have h2 : m + 1 + k = (m + k) + 1 := by omega
          rw [h2]
          show d :: cyc (us ++ [d]) (m + k) = (d :: cyc (us ++ [d]) m) ++ _
          rw [ih (us ++ [d]) k, h1]
          simp

theorem cyc_full : ∀ (u : List Char), cyc u u.length = u := by
  intro u
  rcases h : u with _ | ⟨d, us⟩
  · rfl
  · rw [← h]
    apply List.ext_getElem?
    intro i
    by_cases hi : i < u.length
    · rw [cyc_getElem? u.length u i (by simp [h]) hi, Nat.mod_eq_of_lt hi]
    · rw [List.getElem?_eq_none (by rw [cyc_length u.length u (by simp [h])]; omega),
         List.getElem?_eq_none (by omega)]

theorem rotate_add_mul : ∀ (c : Nat) (u : List Char) (a : Nat),
    u.rotate (a + u.length * c) = u.rotate a := by
  intro c
  induction c with
  | zero => intro u a; simp
  | succ c ih =>
      intro u a
      have hsplit : a + u.length * (c + 1) = (a + u.length * c) + u.length := by ring
      have h2 : (u.rotate (a + u.length * c)).rotate ((u.rotate (a + u.length * c)).length)
          = u.rotate (a + u.length * c) := List.rotate_length _
      rw [List.length_rotate] at h2
      rw [hsplit, ← List.rotate_rotate, h2, ih]

theorem cyc_take : ∀ (u : List Char) (m n : Nat), m ≤ n → (cyc u n).take m = cyc u m := by
  intro u m n hmn
  rcases hu : u with _ | ⟨d, us⟩
  · simp [cyc_nil]
  · rw [← hu]
    have h1 : n = m + (n - m) := by omega
    rw [h1, cyc_add, List.take_append_of_le_length (by rw [cyc_length _ _ (by simp [hu])]),
      List.take_of_length_le (by rw [cyc_length _ _ (by simp [hu])])]

theorem cyc_drop : ∀ (u : List Char) (m k : Nat), u ≠ [] →
    (cyc u (m + k)).drop m = cyc (u.rotate m) k := by
  intro u m k hu
  rw [cyc_add, List.drop_append_of_le_length (by rw [cyc_length _ _ hu]),
    List.drop_of_length_le (by rw [cyc_length _ _ hu]), List.nil_append]

theorem mod_sum_eq (d x y : Nat) (hd : 0 < d) (hx : x < d) (hy : y < d)
    (h : (x + y) % d = d - 1) : x + y = d - 1 := by
  rcases Nat.lt_or_ge (x + y) d with hlt | hge
  · rwa [Nat.mod_eq_of_lt hlt] at h
  · have h2 : (x + y) % d = x + y - d := by
      rw [Nat.mod_eq_sub_mod hge, Nat.mod_eq_of_lt (by omega)]
    omega

theorem revcyc_idx (n d i : Nat) (hd : 0 < d) (hi : i < n) :
    (n - 1 - i) % d = d - 1 - ((i + (d - n % d)) % d) := by
  have hmod : n % d < d := Nat.mod_lt _ hd
  have hdiv := Nat.div_add_mod n d
  have hs : (n - 1 - i) + (i + (d - n % d)) = d * (n / d) + (d - 1) := by omega
  have hab : ((n - 1 - i) % d + (i + (d - n % d)) % d) % d = d - 1 := by
    rw [← Nat.add_mod, hs, Nat.mul_add_mod, Nat.mod_eq_of_lt (by omega)]
  have ha : (n - 1 - i) % d < d := Nat.mod_lt _ hd
  have hb : (i + (d - n % d)) % d < d := Nat.mod_lt _ hd
  have hsum := mod_sum_eq d ((n - 1 - i) % d) ((i + (d - n % d)) % d) hd ha hb hab
  omega

theorem add_mod_left_mod (i r d : Nat) : (i % d + r) % d = (i + r) % d := by
  conv_lhs => rw [Nat.add_mod]
  conv_rhs => rw [Nat.add_mod]
  rw [Nat.mod_mod_of_dvd _ dvd_rfl]

theorem head?_rotate (u : List Char) (k : Nat) (hu : u ≠ []) :
    (u.rotate k).head? = u[k % u.length]? := by
  rw [List.head?_eq_getElem?]
  rw [List.getElem?_rotate (List.length_pos.mpr hu)]
  simp

theorem rev_cyc (u : List Char) (n : Nat) (hu : u ≠ []) :
    (cyc u n).reverse = cyc (u.reverse.rotate (u.length - n % u.length)) n := by
  have hd : 0 < u.length := List.length_pos.mpr hu
  have hrev : u.reverse ≠ [] := by simpa using hu
  have hrot : u.reverse.rotate (u.length - n % u.length) ≠ [] := rotate_ne_nil _ _ hrev
  apply List.ext_getElem?
  intro i
  by_cases hi : i < n
  · rw [List.getElem?_reverse (by rw [cyc_length _ _ hu]; exact hi)]
    rw [cyc_length _ _ hu]
    rw [cyc_getElem? n u (n - 1 - i) hu (by omega)]
    rw [cyc_getElem? n _ i hrot hi]
    have hvlen : (u.reverse.rotate (u.length - n % u.length)).length = u.length := by
      rw [List.length_rotate, List.length_reverse]
    rw [hvlen]
    rw [List.getElem?_rotate (by rw [List.length_reverse]; exact Nat.mod_lt _ hd)]
    rw [List.getElem?_reverse (by rw [List.length_reverse]; exact Nat.mod_lt _ hd)]
    rw [List.length_reverse]
    rw [add_mod_left_mod i (u.length - n % u.length) u.length]
    rw [revcyc_idx n u.length i hd hi]
  · rw [List.getElem?_eq_none (by rw [List.length_reverse, cyc_length _ _ hu]; omega),
      List.getElem?_eq_none (by rw [cyc_length _ _ hrot]; omega)]

/-! ### Normalization idempotence: munch lemmas -/

theorem munch_le : ∀ (w u : List Char), munch w u ≤ w.length := by
  intro w
  induction w with
  | nil => intro u; cases u <;> simp [munch]
  | cons c ws ih =>
      intro u
      cases u with
      | nil => simp [munch]
      | cons d us =>
          have := ih (us ++ [d])
          by_cases h : c = d <;> simp [munch, h] <;> omega

theorem munch_take : ∀ (w u : List Char), u ≠ [] →
    w.take (munch w u) = cyc u (munch w u) := by
  intro w
  induction w with
  | nil => intro u _; cases u <;> simp [munch, cyc]
  | cons c ws ih =>
      intro u hu
      cases u with
      | nil => exact absurd rfl hu
      | cons d us =>
          by_cases h : c = d
          · have h1 := ih (us ++ [d]) (by simp)
            simp only [munch, h, if_pos]
            show (d :: ws).take (munch ws (us ++ [d]) + 1) = cyc (d :: us) (munch ws (us ++ [d]) + 1)
            simp only [List.take_succ_cons, cyc]
            rw [h1]
          · simp [munch, h, cyc]

theorem munch_mismatch : ∀ (w u : List Char), u ≠ [] → munch w u < w.length →
    w[munch w u]? ≠ (u.rotate (munch w u)).head? := by
  intro w
  induction w with
  | nil => intro u _ h; simp at h
  | cons c ws ih =>
      intro u hu hlt
      cases u with
      | nil => exact absurd rfl hu
      | cons d us =>
          by_cases h : c = d
          · have h1 := ih (us ++ [d]) (by simp)
            rw [show munch (c :: ws) (d :: us) = munch ws (us ++ [d]) + 1 from by
              simp [munch, h]] at hlt ⊢
            simp only [List.getElem?_cons_succ]
            have h2 : (d :: us).rotate (munch ws (us ++ [d]) + 1)
                = (us ++ [d]).rotate (munch ws (us ++ [d])) := by
              rw [List.rotate_cons_succ]
            rw [h2]
            exact h1 (by simp only [List.length_cons] at hlt; omega)
          · intro hEq
            rw [show munch (c :: ws) (d :: us) = 0 from by simp [munch, h]] at hEq
            simp [List.rotate_zero] at hEq
            exact h hEq

theorem munch_eq_of : ∀ (w u : List Char) (m : Nat), u ≠ [] → m ≤ w.length →
    w.take m = cyc u m →
    (m < w.length → w[m]? ≠ (u.rotate m).head?) → munch w u = m := by
  intro w
  induction w with
  | nil =>
      intro u m _ hle _ _
      have : m = 0 := by simpa using hle
      subst this
      cases u <;> simp [munch]
  | cons c ws ih =>
      intro u m hu hle htake hmax
      cases u with
      | nil => exact absurd rfl hu
      | cons d us =>
          cases m with
          | zero =>
              have h0 := hmax (by simp)
              simp only [List.rotate_zero, List.head?_cons, List.getElem?_cons_zero] at h0
              have : c ≠ d := fun hcd => h0 (by rw [hcd])
              simp [munch, this]
          | succ m =>
              simp only [List.take_succ_cons, cyc, List.cons.injEq] at htake
              obtain ⟨hcd, htk⟩ := htake
              have h1 : munch (c :: ws) (d :: us) = munch ws (us ++ [d]) + 1 := by
                simp [munch, hcd]
              rw [h1]
              have h2 := ih (us ++ [d]) m (by simp) (by simpa using hle) htk ?_
              · omega
              · intro hm
                have h3 := hmax (by simpa using hm)
                simp only [List.getElem?_cons_succ] at h3
                rw [show (d :: us).rotate (m + 1) = (us ++ [d]).rotate m from
                  List.rotate_cons_succ us d m] at h3
                exact h3

theorem munch_shift : ∀ (k : Nat) (u w : List Char), u ≠ [] →
    munch (cyc u k ++ w) u = k + munch w (u.rotate k) := by
  intro k
  induction k with
  | zero => intro u w _; simp [cyc]
  | succ k ih =>
      intro u w hu
      cases u with
      | nil => exact absurd rfl hu
      | cons d us =>
          show munch (d :: (cyc (us ++ [d]) k ++ w)) (d :: us) = _
          rw [show munch (d :: (cyc (us ++ [d]) k ++ w)) (d :: us)
              = munch (cyc (us ++ [d]) k ++ w) (us ++ [d]) + 1 from by simp [munch]]
          rw [ih (us ++ [d]) w (by simp)]
          rw [show (d :: us).rotate (k + 1) = (us ++ [d]).rotate k from
            List.rotate_cons_succ us d k]
          omega

/-! ### Normalization idempotence: roll stability -/

theorem cpl_nil_right : ∀ (x : List Char), cpl x [] = 0 := by
  intro x
  cases x <;> rfl

theorem cyc_zero (v : List Char) : cyc v 0 = [] := by
  cases v <;> rfl

theorem sl_self (l : List Char) (a : Nat) : sl l a a = [] := by
  simp [sl]

theorem sl_take (l : List Char) (a b c : Nat) (hbc : b ≤ c) :
    sl l a b = (sl l a c).take (b - a) := by
  simp only [sl, List.take_take]
  congr 1
  omega

theorem sl_rev_take (ref : List Char) (L s : Nat) (hLs : L ≤ s) (hs : s ≤ ref.length) :
    (sl ref L s).reverse = ((ref.take s).reverse).take (s - L) := by
  have h1 : sl ref L s = (ref.take s).drop L := by
    rw [List.drop_take]
    rfl
  rw [h1, List.reverse_drop]
  congr 1
  rw [List.length_take]
  omega

theorem rotate_exp_reduce (v : List Char) (x c : Nat) :
    v.rotate (x + v.length * c) = v.rotate x := rotate_add_mul c v x

theorem roll_idem (ref u : List Char) (hu : u ≠ []) (s e : Nat)
    (hse : s ≤ e) (heref : e ≤ ref.length)
    (hmid : sl ref s e = cyc u (e - s)) (hdvd : (e - s) % u.length = 0) :
    rollL ref s u ≤ s ∧ e ≤ rollR ref e u ∧ rollR ref e u ≤ ref.length ∧
    sl ref e (rollR ref e u) = cyc u (rollR ref e u - e) ∧
    (sl ref (rollL ref s u) s).reverse = cyc u.reverse (s - rollL ref s u) ∧
    sl ref s (s + (rollR ref e u - e)) = cyc u (rollR ref e u - e) ∧
    rollR ref (rollR ref e u) (u.rotate (rollR ref e u - e)) = rollR ref e u ∧
    rollL ref (s + (rollR ref e u - e)) (u.rotate (rollR ref e u - e)) = rollL ref s u := by
  have hd : 0 < u.length := List.length_pos.mpr hu
  have hurev : u.reverse ≠ [] := by simpa using hu
  have hsref : s ≤ ref.length := le_trans hse heref
  have htakelen : (ref.take s).length = s := by rw [List.length_take]; omega
  have hmHle : munch (ref.drop e) u ≤ ref.length - e := by
    have := munch_le (ref.drop e) u
    rwa [List.length_drop] at this
  have hmLle : munch (ref.take s).reverse u.reverse ≤ s := by
    have := munch_le (ref.take s).reverse u.reverse
    rwa [List.length_reverse, htakelen] at this
  set mH := munch (ref.drop e) u with hmH
  set mL := munch (ref.take s).reverse u.reverse with hmLdef
  have hrollR : rollR ref e u = e + mH := rfl
  have hrollL : rollL ref s u = s - mL := rfl
  rw [hrollR, hrollL]
  have hHe : e + mH - e = mH := by omega
  rw [hHe]
  have hRZ : sl ref e (e + mH) = cyc u mH := by
    have h := munch_take (ref.drop e) u hu
    show (ref.drop e).take (e + mH - e) = cyc u mH
    rw [hHe]
    exact h
  have hLZ : (sl ref (s - mL) s).reverse = cyc u.reverse mL := by
    rw [sl_rev_take ref (s - mL) s (by omega) hsref]
    have h2 : s - (s - mL) = mL := by omega
    rw [h2]
    exact munch_take (ref.take s).reverse u.reverse hurev
  have hrotmid : u.rotate (e - s) = u := by
    have hsplit : e - s = 0 + u.length * ((e - s) / u.length) := by
      have := Nat.div_add_mod (e - s) u.length
      omega
    rw [hsplit, rotate_exp_reduce, List.rotate_zero]
  have hsH : sl ref s (e + mH) = cyc u ((e - s) + mH) := by
    rw [cyc_add, hrotmid, ← hmid, ← hRZ]
    exact (sl_append ref s e (e + mH) hse (by omega)).symm
  have hsmH : sl ref s (s + mH) = cyc u mH := by
    rw [sl_take ref s (s + mH) (e + mH) (by omega), hsH]
    have h3 : s + mH - s = mH := by omega
    rw [h3, cyc_take u mH ((e - s) + mH) (by omega)]
  have hrotV : (u.rotate mH).reverse = u.reverse.rotate (u.length - mH % u.length) :=
    List.reverse_rotate u mH
  have hexp1 : (u.length - mH % u.length) + mH = 0 + u.length * (1 + mH / u.length) := by
    have := Nat.div_add_mod mH u.length
    have := Nat.mod_lt mH hd
    ring_nf
    omega
  have hrotVmH : (u.rotate mH).reverse.rotate mH = u.reverse := by
    rw [hrotV, List.rotate_rotate]
    have hlen : u.length = u.reverse.length := (List.length_reverse u).symm
    rw [hexp1, hlen, rotate_exp_reduce, List.rotate_zero]
  have hexp2 : (u.length - mH % u.length) + (mH + mL) = mL + u.length * (1 + mH / u.length) := by
    have := Nat.div_add_mod mH u.length
    have := Nat.mod_lt mH hd
    omega
  have hrotVmHmL : (u.rotate mH).reverse.rotate (mH + mL) = u.reverse.rotate mL := by
    rw [hrotV, List.rotate_rotate]
    have hlen : u.length = u.reverse.length := (List.length_reverse u).symm
    rw [hexp2, hlen, rotate_exp_reduce]
  have hR2 : rollR ref (e + mH) (u.rotate mH) = e + mH := by
    show (e + mH) + munch (ref.drop (e + mH)) (u.rotate mH) = e + mH
    have hz : munch (ref.drop (e + mH)) (u.rotate mH) = 0 := by
      apply munch_eq_of _ _ 0 (rotate_ne_nil u mH hu) (Nat.zero_le _)
        (by rw [List.take_zero, cyc_zero])
      intro hlen0
      rw [List.rotate_zero]
      have hHlt : e + mH < ref.length := by
        rw [List.length_drop] at hlen0
        omega
      have hmm := munch_mismatch (ref.drop e) u hu (by rw [List.length_drop]; omega)
      rw [← hmH] at hmm
      have he1 : (ref.drop e)[mH]? = ref[e + mH]? := by
        rw [List.getElem?_drop]
      have he2 : (ref.drop (e + mH))[0]? = ref[e + mH]? := by
        rw [List.getElem?_drop]
        simp
      rw [he2, ← he1]
      exact hmm
    omega
  have hL2 : rollL ref (s + mH) (u.rotate mH) = s - mL := by
    show (s + mH) - munch (ref.take (s + mH)).reverse (u.rotate mH).reverse = s - mL
    have hs2ref : s + mH ≤ ref.length := by omega
    have htakelen2 : (ref.take (s + mH)).length = s + mH := by
      rw [List.length_take]
      omega
    have hkey : munch (ref.take (s + mH)).reverse (u.rotate mH).reverse = mH + mL := by
      apply munch_eq_of
      · simpa using rotate_ne_nil u mH hu
      · rw [List.length_reverse, htakelen2]
        omega
      · have hL1 : ((ref.take (s + mH)).reverse).take (mH + mL)
            = (sl ref (s - mL) (s + mH)).reverse := by
          rw [sl_rev_take ref (s - mL) (s + mH) (by omega) hs2ref]
          congr 1
          omega
        rw [hL1]
        have hsplit2 : sl ref (s - mL) (s + mH)
            = sl ref (s - mL) s ++ sl ref s (s + mH) :=
          (sl_append ref (s - mL) s (s + mH) (by omega) (by omega)).symm
        rw [hsplit2, List.reverse_append, hLZ, hsmH]
        rw [cyc_add]
        congr 1
        · exact (rev_cyc u mH hu).trans (by rw [hrotV])
        · rw [hrotVmH]
      · intro hlt
        rw [List.length_reverse, htakelen2] at hlt
        have hmLlt : mL < s := by omega
        have hidx : ((ref.take (s + mH)).reverse)[mH + mL]? = ref[s - mL - 1]? := by
          rw [List.getElem?_reverse (by rw [htakelen2]; omega), htakelen2]
          rw [List.getElem?_take_of_lt (by omega : s + mH - 1 - (mH + mL) < s + mH)]
          congr 1
          omega
        rw [hidx, hrotVmHmL]
        have hmm := munch_mismatch (ref.take s).reverse u.reverse hurev
          (by rw [List.length_reverse, htakelen]; omega)
        rw [← hmLdef] at hmm
        have hidx2 : ((ref.take s).reverse)[mL]? = ref[s - mL - 1]? := by
          rw [List.getElem?_reverse (by rw [htakelen]; omega), htakelen]
          rw [List.getElem?_take_of_lt (by omega : s - 1 - mL < s)]
          congr 1
          omega
        rw [hidx2] at hmm
        exact hmm
    rw [hkey]
    omega
  have hLZ2 : (sl ref (s - mL) s).reverse = cyc u.reverse (s - (s - mL)) := by
    rw [show s - (s - mL) = mL from by omega]
    exact hLZ
  exact ⟨by omega, by omega, by omega, hRZ, hLZ2, hsmH, hR2, hL2⟩

/-! ### Normalization idempotence: trim facts and emitted fixed points -/

theorem cpl_nil_left : ∀ (x : List Char), cpl [] x = 0 := by
  intro x
  cases x <;> rfl

theorem sl_drop (l : List Char) (a b k : Nat) :
    (sl l a b).drop k = sl l (a + k) b := by
  simp only [sl, List.drop_take, List.drop_drop]
  rw [show b - a - k = b - (a + k) from by omega]

theorem cyc_rot_full (u : List Char) (m : Nat) :
    cyc (u.rotate m) u.length = u.rotate m := by
  rw [show u.length = (u.rotate m).length from (List.length_rotate u m).symm, cyc_full]

theorem u_app_cyc (u : List Char) (m : Nat) :
    u ++ cyc u m = cyc u (u.length + m) := by
  rw [cyc_add, List.rotate_length, cyc_full]

theorem cyc_app_rot (u : List Char) (m : Nat) :
    cyc u m ++ u.rotate m = u ++ cyc u m := by
  rw [u_app_cyc, ← cyc_rot_full u m, ← cyc_add, Nat.add_comm]

theorem norm_lit_cases (ref : List Char) (sr : SequenceReference) (st en : Nat)
    (A : List Char) (p q : Nat) (R1 A1 : List Char)
    (hp : p = cpl (sl ref st en) A)
    (hq : q = cpl ((sl ref st en).drop p).reverse (A.drop p).reverse)
    (hR1 : R1 = ((sl ref st en).drop p).take ((sl ref st en).length - p - q))
    (hA1 : A1 = (A.drop p).take (A.length - p - q)) :
    normalizeAllele ref ⟨⟨sr, st, en⟩, .literal A⟩ =
    (if R1 = [] ∧ A1 = [] then ⟨⟨sr, st, en⟩, .literal A⟩
     else if R1 ≠ [] ∧ A1 ≠ [] then ⟨⟨sr, st + p, en - q⟩, .literal A1⟩
     else
       let u := if R1 = [] then A1 else R1
       let L := rollL ref (st + p) u
       let H := rollR ref (en - q) u
       if (H - L) % u.length = 0 ∧ 0 < H - L ∧ 2 ≤ u.length then
         ⟨⟨sr, L, H⟩, .rle (H - L + A1.length - R1.length) u.length⟩
       else
         ⟨⟨sr, L, H⟩, .literal (sl ref L (st + p) ++ A1 ++ sl ref (en - q) H)⟩) := by
  subst hp hq hR1 hA1
  rfl

theorem trim_bound (R A : List Char) (p q : Nat)
    (hp : p = cpl R A) (hq : q = cpl (R.drop p).reverse (A.drop p).reverse) :
    p ≤ R.length ∧ p ≤ A.length ∧ q ≤ R.length - p ∧ q ≤ A.length - p := by
  refine ⟨hp ▸ cpl_le_left R A, hp ▸ cpl_le_right R A, ?_, ?_⟩
  · have h := cpl_le_left (R.drop p).reverse (A.drop p).reverse
    rw [List.length_reverse, List.length_drop] at h
    omega
  · have h := cpl_le_right (R.drop p).reverse (A.drop p).reverse
    rw [List.length_reverse, List.length_drop] at h
    omega

theorem trim_lengths (R A : List Char) (p q : Nat) (R1 A1 : List Char)
    (hp : p = cpl R A) (hq : q = cpl (R.drop p).reverse (A.drop p).reverse)
    (hR1 : R1 = (R.drop p).take (R.length - p - q))
    (hA1 : A1 = (A.drop p).take (A.length - p - q)) :
    R1.length = R.length - p - q ∧ A1.length = A.length - p - q := by
  obtain ⟨h1, h2, h3, h4⟩ := trim_bound R A p q hp hq
  constructor
  · rw [hR1, List.length_take, List.length_drop]
    omega
  · rw [hA1, List.length_take, List.length_drop]
    omega

theorem trim_cpl_head (R A : List Char) (p q : Nat) (R1 A1 : List Char)
    (hp : p = cpl R A) (hq : q = cpl (R.drop p).reverse (A.drop p).reverse)
    (hR1 : R1 = (R.drop p).take (R.length - p - q))
    (hA1 : A1 = (A.drop p).take (A.length - p - q))
    (hRne : R1 ≠ []) (hAne : A1 ≠ []) : cpl R1 A1 = 0 := by
  obtain ⟨hb1, hb2, hb3, hb4⟩ := trim_bound R A p q hp hq
  obtain ⟨hl1, hl2⟩ := trim_lengths R A p q R1 A1 hp hq hR1 hA1
  have hRpos : 0 < R1.length := List.length_pos.mpr hRne
  have hApos : 0 < A1.length := List.length_pos.mpr hAne
  have hpR : p < R.length := by omega
  have hpA : p < A.length := by omega
  have hmm := cpl_mismatch R A (hp ▸ hpR) (hp ▸ hpA)
  rw [← hp] at hmm
  have hR0 : R1[0]? = R[p]? := by
    rw [hR1, List.getElem?_take_of_lt (by omega), List.getElem?_drop]
    simp
  have hA0 : A1[0]? = A[p]? := by
    rw [hA1, List.getElem?_take_of_lt (by omega), List.getElem?_drop]
    simp
  have := cpl_le_of_get_ne R1 A1 0 (by rw [hR0, hA0]; simpa using hmm)
  omega

theorem trim_cpl_last (R A : List Char) (p q : Nat) (R1 A1 : List Char)
    (hp : p = cpl R A) (hq : q = cpl (R.drop p).reverse (A.drop p).reverse)
    (hR1 : R1 = (R.drop p).take (R.length - p - q))
    (hA1 : A1 = (A.drop p).take (A.length - p - q))
    (hRne : R1 ≠ []) (hAne : A1 ≠ []) : cpl R1.reverse A1.reverse = 0 := by
  obtain ⟨hb1, hb2, hb3, hb4⟩ := trim_bound R A p q hp hq
  obtain ⟨hl1, hl2⟩ := trim_lengths R A p q R1 A1 hp hq hR1 hA1
  have hRpos : 0 < R1.length := List.length_pos.mpr hRne
  have hApos : 0 < A1.length := List.length_pos.mpr hAne
  have hqW : q < (R.drop p).reverse.length := by
    rw [List.length_reverse, List.length_drop]; omega
  have hqV : q < (A.drop p).reverse.length := by
    rw [List.length_reverse, List.length_drop]; omega
  have hmm := cpl_mismatch (R.drop p).reverse (A.drop p).reverse
    (hq ▸ hqW) (hq ▸ hqV)
  rw [← hq] at hmm
  have hR0 : R1.reverse[0]? = (R.drop p).reverse[q]? := by
    rw [hR1, List.getElem?_reverse (by rw [List.length_take, List.length_drop]; omega),
      List.getElem?_reverse (by rw [List.length_drop]; omega)]
    rw [List.length_take, List.length_drop]
    rw [List.getElem?_take_of_lt (by omega)]
    congr 1
    omega
  have hA0 : A1.reverse[0]? = (A.drop p).reverse[q]? := by
    rw [hA1, List.getElem?_reverse (by rw [List.length_take, List.length_drop]; omega),
      List.getElem?_reverse (by rw [List.length_drop]; omega)]
    rw [List.length_take, List.length_drop]
    rw [List.getElem?_take_of_lt (by omega)]
    congr 1
    omega
  have := cpl_le_of_get_ne R1.reverse A1.reverse 0 (by rw [hR0, hA0]; exact hmm)
  omega

theorem trim_R1_sl (ref : List Char) (st en : Nat) (A : List Char) (p q : Nat)
    (hp : p = cpl (sl ref st en) A)
    (hq : q = cpl ((sl ref st en).drop p).reverse (A.drop p).reverse)
    (h1 : st ≤ en) (h2 : en ≤ ref.length) :
    ((sl ref st en).drop p).take ((sl ref st en).length - p - q) = sl ref (st + p) (en - q) := by
  obtain ⟨hb1, hb2, hb3, hb4⟩ := trim_bound (sl ref st en) A p q hp hq
  have hRlen : (sl ref st en).length = en - st := sl_length ref st en h1 h2
  rw [sl_drop, hRlen]
  show (sl ref (st + p) en).take (en - st - p - q) = sl ref (st + p) (en - q)
  rw [sl_take ref (st + p) (en - q) en (by omega)]
  congr 1
  omega

theorem norm_fix_subst (ref : List Char) (sr : SequenceReference) (s e : Nat)
    (A1 : List Char) (hRne : sl ref s e ≠ []) (hAne : A1 ≠ [])
    (hp0 : cpl (sl ref s e) A1 = 0)
    (hq0 : cpl (sl ref s e).reverse A1.reverse = 0) :
    normalizeAllele ref ⟨⟨sr, s, e⟩, .literal A1⟩ = ⟨⟨sr, s, e⟩, .literal A1⟩ := by
  rw [norm_lit_cases ref sr s e A1 0 0 (sl ref s e) A1 hp0.symm
    (by rw [List.drop_zero, List.drop_zero]; exact hq0.symm)
    (by rw [List.drop_zero, Nat.sub_zero, Nat.sub_zero, List.take_length])
    (by rw [List.drop_zero, Nat.sub_zero, Nat.sub_zero, List.take_length])]
  rw [if_neg (by rintro ⟨h, _⟩; exact hRne h), if_pos ⟨hRne, hAne⟩]
  simp

theorem norm_lit_indel (ref : List Char) (sr : SequenceReference) (st en : Nat)
    (A : List Char) (p q : Nat) (R1 A1 w : List Char)
    (hp : p = cpl (sl ref st en) A)
    (hq : q = cpl ((sl ref st en).drop p).reverse (A.drop p).reverse)
    (hR1 : R1 = ((sl ref st en).drop p).take ((sl ref st en).length - p - q))
    (hA1 : A1 = (A.drop p).take (A.length - p - q))
    (hne : ¬(R1 = [] ∧ A1 = [])) (hnb : ¬(R1 ≠ [] ∧ A1 ≠ []))
    (hw : w = if R1 = [] then A1 else R1) :
    normalizeAllele ref ⟨⟨sr, st, en⟩, .literal A⟩ =
    (if (rollR ref (en - q) w - rollL ref (st + p) w) % w.length = 0 ∧
        0 < rollR ref (en - q) w - rollL ref (st + p) w ∧ 2 ≤ w.length then
       ⟨⟨sr, rollL ref (st + p) w, rollR ref (en - q) w⟩,
         .rle (rollR ref (en - q) w - rollL ref (st + p) w + A1.length - R1.length) w.length⟩
     else
       ⟨⟨sr, rollL ref (st + p) w, rollR ref (en - q) w⟩,
         .literal (sl ref (rollL ref (st + p) w) (st + p) ++ A1 ++
           sl ref (en - q) (rollR ref (en - q) w))⟩) := by
  rw [norm_lit_cases ref sr st en A p q R1 A1 hp hq hR1 hA1, if_neg hne, if_neg hnb]
  subst hw
  rfl

theorem norm_fix_del (ref u : List Char) (sr : SequenceReference) (s e : Nat)
    (hu : u ≠ []) (hse : s ≤ e) (heref : e ≤ ref.length)
    (hueq : sl ref s e = u)
    (hcond : ¬((rollR ref e u - rollL ref s u) % u.length = 0 ∧
      0 < rollR ref e u - rollL ref s u ∧ 2 ≤ u.length)) :
    normalizeAllele ref ⟨⟨sr, rollL ref s u, rollR ref e u⟩,
      .literal (sl ref (rollL ref s u) s ++ sl ref e (rollR ref e u))⟩ =
    ⟨⟨sr, rollL ref s u, rollR ref e u⟩,
      .literal (sl ref (rollL ref s u) s ++ sl ref e (rollR ref e u))⟩ := by
  have hd : 0 < u.length := List.length_pos.mpr hu
  have hlenu : u.length = e - s := by rw [← hueq, sl_length ref s e hse heref]
  have hmid : sl ref s e = cyc u (e - s) := by rw [hueq, ← hlenu, cyc_full]
  have hdvd : (e - s) % u.length = 0 := by rw [← hlenu, Nat.mod_self]
  obtain ⟨hLs, heH, hHref, hRZ, hLZ, hsmH, hR2, hL2⟩ :=
    roll_idem ref u hu s e hse heref hmid hdvd
  set L := rollL ref s u with hLdef
  set H := rollR ref e u with hHdef
  set mH := H - e with hmHdef
  have hrotu : u.rotate (e - s) = u := by rw [← hlenu, List.rotate_length]
  have hsHfull : sl ref s H = cyc u ((e - s) + mH) := by
    rw [cyc_add, hrotu, ← hmid, ← hRZ, sl_append ref s e H hse heH]
  have hslLH : sl ref L H = sl ref L s ++ (u ++ sl ref e H) := by
    rw [← hueq, sl_append ref s e H hse heH, sl_append ref L s H hLs (hse.trans heH)]
  have hSlen : (sl ref e H).length = mH := by rw [hRZ, cyc_length mH u hu]
  have huS : u ++ sl ref e H = cyc u (u.length + mH) := by rw [hRZ, u_app_cyc]
  have htakeS : sl ref e H = (u ++ sl ref e H).take (sl ref e H).length := by
    rw [hSlen, huS, hRZ, cyc_take u mH (u.length + mH) (by omega)]
  have hcplMS : cpl (u ++ sl ref e H) (sl ref e H) = mH := by
    rw [cpl_comm, cpl_prefix_full (sl ref e H) (u ++ sl ref e H)
      (by rw [List.length_append]; omega) htakeS, hSlen]
  have hPlen : (sl ref L s).length = s - L := sl_length ref L s hLs (hse.trans heref)
  have hpv : (s - L) + mH = cpl (sl ref L H) (sl ref L s ++ sl ref e H) := by
    rw [hslLH, cpl_append_left, hcplMS, hPlen]
  have hTdrop : (sl ref L s ++ sl ref e H).drop ((s - L) + mH) = [] := by
    apply List.drop_eq_nil_of_le
    rw [List.length_append, hPlen, hSlen]
  have hqv : 0 = cpl ((sl ref L H).drop ((s - L) + mH)).reverse
      ((sl ref L s ++ sl ref e H).drop ((s - L) + mH)).reverse := by
    rw [hTdrop, List.reverse_nil, cpl_nil_right]
  have hdropmH : sl ref (s + mH) H = cyc (u.rotate mH) (e - s) := by
    rw [← sl_drop ref s H mH, hsHfull, Nat.add_comm (e - s) mH, cyc_drop u mH (e - s) hu]
  have hR1v : u.rotate mH = ((sl ref L H).drop ((s - L) + mH)).take
      ((sl ref L H).length - ((s - L) + mH) - 0) := by
    rw [sl_drop, show L + ((s - L) + mH) = s + mH from by omega, hdropmH,
      sl_length ref L H (by omega) hHref,
      show H - L - ((s - L) + mH) - 0 = e - s from by omega,
      List.take_of_length_le (le_of_eq (cyc_length (e - s) (u.rotate mH) (rotate_ne_nil u mH hu))),
      ← hlenu, cyc_rot_full]
  have hA1v : ([] : List Char) = ((sl ref L s ++ sl ref e H).drop ((s - L) + mH)).take
      ((sl ref L s ++ sl ref e H).length - ((s - L) + mH) - 0) := by
    rw [hTdrop, List.take_nil]
  rw [norm_lit_indel ref sr L H (sl ref L s ++ sl ref e H) ((s - L) + mH) 0
    (u.rotate mH) [] (u.rotate mH) hpv hqv hR1v hA1v
    (by rintro ⟨h, _⟩; exact rotate_ne_nil u mH hu h)
    (by rintro ⟨_, h⟩; exact h rfl)
    (if_neg (rotate_ne_nil u mH hu)).symm]
  rw [Nat.sub_zero, show L + ((s - L) + mH) = s + mH from by omega, hR2, hL2,
    List.length_rotate, if_neg hcond]
  have hsplit : sl ref L s ++ sl ref s (s + mH) = sl ref L (s + mH) :=
    sl_append ref L s (s + mH) hLs (by omega)
  rw [sl_self]
  simp only [List.append_nil]
  rw [← hsplit, hsmH, ← hRZ]

theorem norm_fix_ins (ref u : List Char) (sr : SequenceReference) (s : Nat)
    (hu : u ≠ []) (hsref : s ≤ ref.length)
    (hcond : ¬((rollR ref s u - rollL ref s u) % u.length = 0 ∧
      0 < rollR ref s u - rollL ref s u ∧ 2 ≤ u.length)) :
    normalizeAllele ref ⟨⟨sr, rollL ref s u, rollR ref s u⟩,
      .literal (sl ref (rollL ref s u) s ++ u ++ sl ref s (rollR ref s u))⟩ =
    ⟨⟨sr, rollL ref s u, rollR ref s u⟩,
      .literal (sl ref (rollL ref s u) s ++ u ++ sl ref s (rollR ref s u))⟩ := by
  have hd : 0 < u.length := List.length_pos.mpr hu
  obtain ⟨hLs, hsH0, hHref, hRZ, hLZ, hsmH, hR2, hL2⟩ :=
    roll_idem ref u hu s s le_rfl hsref
      (by rw [sl_self, Nat.sub_self, cyc_zero])
      (by rw [Nat.sub_self, Nat.zero_mod])
  set L := rollL ref s u with hLdef
  set H := rollR ref s u with hHdef
  set mH := H - s with hmHdef
  have hSlen : (sl ref s H).length = mH := by rw [hRZ, cyc_length mH u hu]
  have hPlen : (sl ref L s).length = s - L := sl_length ref L s hLs hsref
  have hslLH : sl ref L H = sl ref L s ++ sl ref s H :=
    (sl_append ref L s H hLs hsH0).symm
  have huS : u ++ sl ref s H = cyc u (u.length + mH) := by rw [hRZ, u_app_cyc]
  have htakeS : sl ref s H = (u ++ sl ref s H).take (sl ref s H).length := by
    rw [hSlen, huS, hRZ, cyc_take u mH (u.length + mH) (by omega)]
  have hcplS : cpl (sl ref s H) (u ++ sl ref s H) = mH := by
    rw [cpl_prefix_full (sl ref s H) (u ++ sl ref s H)
      (by rw [List.length_append]; omega) htakeS, hSlen]
  have hpv : (s - L) + mH = cpl (sl ref L H) (sl ref L s ++ u ++ sl ref s H) := by
    rw [hslLH, List.append_assoc, cpl_append_left, hcplS, hPlen]
  have hRdrop : (sl ref L H).drop ((s - L) + mH) = [] := by
    apply List.drop_eq_nil_of_le
    rw [sl_length ref L H (le_trans hLs hsH0) hHref]
    omega
  have hqv : 0 = cpl ((sl ref L H).drop ((s - L) + mH)).reverse
      ((sl ref L s ++ u ++ sl ref s H).drop ((s - L) + mH)).reverse := by
    rw [hRdrop, List.reverse_nil, cpl_nil_left]
  have hR1v : ([] : List Char) = ((sl ref L H).drop ((s - L) + mH)).take
      ((sl ref L H).length - ((s - L) + mH) - 0) := by
    rw [hRdrop, List.take_nil]
  have hTdropA : (sl ref L s ++ u ++ sl ref s H).drop ((s - L) + mH) = u.rotate mH := by
    rw [List.append_assoc, show (s - L) + mH = (sl ref L s).length + mH from by
      rw [hPlen], List.drop_append, huS,
      show u.length + mH = mH + u.length from by omega, cyc_drop u mH u.length hu,
      cyc_rot_full]
  have hA1v : u.rotate mH = ((sl ref L s ++ u ++ sl ref s H).drop ((s - L) + mH)).take
      ((sl ref L s ++ u ++ sl ref s H).length - ((s - L) + mH) - 0) := by
    rw [hTdropA, List.take_of_length_le (by
      rw [List.length_rotate, List.length_append, List.length_append, hPlen, hSlen]
      omega)]
  rw [norm_lit_indel ref sr L H (sl ref L s ++ u ++ sl ref s H) ((s - L) + mH) 0
    [] (u.rotate mH) (u.rotate mH) hpv hqv hR1v hA1v
    (by rintro ⟨_, h⟩; exact rotate_ne_nil u mH hu h)
    (by rintro ⟨h, _⟩; exact h rfl)
    (if_pos rfl).symm]
  rw [Nat.sub_zero, show L + ((s - L) + mH) = s + mH from by omega, hR2, hL2,
    List.length_rotate, if_neg hcond]
  have hsplit : sl ref L s ++ sl ref s (s + mH) = sl ref L (s + mH) :=
    sl_append ref L s (s + mH) hLs (by omega)
  rw [sl_self]
  simp only [List.append_nil]
  rw [← hsplit, hsmH, List.append_assoc, cyc_app_rot, ← List.append_assoc, ← hRZ]

/-- C5: fully-justified normalization is idempotent — for every Allele
whose location interval is well-formed against the reference residues
(start at most stop, stop within the reference), applying
`normalizeAllele` twice yields bitwise the same Allele as applying it
once, in every branch (identity, substitution, reference-length
expression, pure insertion and pure deletion). -/
theorem normalize_idempotent (ref : List Char) (a : Allele)
    (h1 : a.location.start ≤ a.location.stop)
    (h2 : a.location.stop ≤ ref.length) :
    normalizeAllele ref (normalizeAllele ref a) = normalizeAllele ref a := by
  obtain ⟨⟨sr, st, en⟩, sta⟩ := a
  have h1' : st ≤ en := h1
  have h2' : en ≤ ref.length := h2
  cases sta with
  | rle n k => rfl
  | lengthExpr n => rfl
  | literal A =>
    set p := cpl (sl ref st en) A with hpdef
    set q := cpl ((sl ref st en).drop p).reverse (A.drop p).reverse with hqdef
    set R1 := ((sl ref st en).drop p).take ((sl ref st en).length - p - q) with hR1def
    set A1 := (A.drop p).take (A.length - p - q) with hA1def
    obtain ⟨hb1, hb2, hb3, hb4⟩ := trim_bound (sl ref st en) A p q hpdef hqdef
    have hRlen : (sl ref st en).length = en - st := sl_length ref st en h1' h2'
    rw [hRlen] at hb1 hb3
    by_cases hid : R1 = [] ∧ A1 = []
    · have hstep := norm_lit_cases ref sr st en A p q R1 A1 hpdef hqdef hR1def hA1def
      rw [if_pos hid] at hstep
      rw [hstep]
      exact hstep
    · by_cases hsub : R1 ≠ [] ∧ A1 ≠ []
      · have hstep := norm_lit_cases ref sr st en A p q R1 A1 hpdef hqdef hR1def hA1def
        rw [if_neg hid, if_pos hsub] at hstep
        rw [hstep]
        have hR1sl : R1 = sl ref (st + p) (en - q) := by
          rw [hR1def]
          exact trim_R1_sl ref st en A p q hpdef hqdef h1' h2'
        apply norm_fix_subst ref sr (st + p) (en - q) A1
        · rw [← hR1sl]; exact hsub.1
        · exact hsub.2
        · rw [← hR1sl]
          exact trim_cpl_head (sl ref st en) A p q R1 A1 hpdef hqdef hR1def hA1def
            hsub.1 hsub.2
        · rw [← hR1sl]
          exact trim_cpl_last (sl ref st en) A p q R1 A1 hpdef hqdef hR1def hA1def
            hsub.1 hsub.2
      · have hxor : (R1 = [] ∧ A1 ≠ []) ∨ (R1 ≠ [] ∧ A1 = []) := by tauto
        have hstep := norm_lit_indel ref sr st en A p q R1 A1
          (if R1 = [] then A1 else R1) hpdef hqdef hR1def hA1def hid hsub rfl
        obtain ⟨hl1, hl2⟩ := trim_lengths (sl ref st en) A p q R1 A1 hpdef hqdef
          hR1def hA1def
        rcases hxor with ⟨hRe, hAne⟩ | ⟨hRne, hAe⟩
        · -- pure insertion
          rw [if_pos hRe] at hstep
          have hR1len0 : R1.length = 0 := by rw [hRe]; rfl
          have hpq : p + q = en - st := by
            rw [hl1, hRlen] at hR1len0
            omega
          have hes : en - q = st + p := by omega
          rw [hes] at hstep
          rw [hstep]
          by_cases hcond : (rollR ref (st + p) A1 - rollL ref (st + p) A1) % A1.length = 0 ∧
              0 < rollR ref (st + p) A1 - rollL ref (st + p) A1 ∧ 2 ≤ A1.length
          · rw [if_pos hcond]
            rfl
          · rw [if_neg hcond]
            exact norm_fix_ins ref A1 sr (st + p) hAne (by omega) hcond
        · -- pure deletion
          rw [if_neg hRne, hAe] at hstep
          simp only [List.append_nil] at hstep
          have hR1sl : R1 = sl ref (st + p) (en - q) := by
            rw [hR1def]
            exact trim_R1_sl ref st en A p q hpdef hqdef h1' h2'
          rw [hstep]
          by_cases hcond : (rollR ref (en - q) R1 - rollL ref (st + p) R1) % R1.length = 0 ∧
              0 < rollR ref (en - q) R1 - rollL ref (st + p) R1 ∧ 2 ≤ R1.length
          · rw [if_pos hcond]
            rfl
          · rw [if_neg hcond]
            exact norm_fix_del ref R1 sr (st + p) (en - q) hRne (by omega) (by omega)
              hR1sl.symm hcond

/-- Witness: idempotence instantiated at the substitution Allele
`1:2 C>T` against the reference residues `ACGT`, with both interval
hypotheses discharged by computation. -/
theorem normalize_idempotent_witness :
    (⟨⟨srX, 1, 2⟩, .literal "T".data⟩ : Allele).location.start ≤
      (⟨⟨srX, 1, 2⟩, .literal "T".data⟩ : Allele).location.stop ∧
    (⟨⟨srX, 1, 2⟩, .literal "T".data⟩ : Allele).location.stop ≤ "ACGT".data.length ∧
    normalizeAllele "ACGT".data
        (normalizeAllele "ACGT".data ⟨⟨srX, 1, 2⟩, .literal "T".data⟩) =
      normalizeAllele "ACGT".data ⟨⟨srX, 1, 2⟩, .literal "T".data⟩ :=
  ⟨by decide, by decide,
    normalize_idempotent "ACGT".data ⟨⟨srX, 1, 2⟩, .literal "T".data⟩
      (by decide) (by decide)⟩
